import Mathlib

/-!
# Verification development for the file-hashing engine (`src/B/md5Hash.c`)

The C program is embedded shallowly:

* a `uint32_t` / `unsigned int` is a `Nat`, every operation that can leave the
  32-bit range is followed by an explicit `% 2 ^ 32`;
* an `unsigned char` cell is a `Nat`, and reading it takes the value `% 256`;
* a C array or a pointer into one (`buffer`, `input`, `&input[i]`) is the
  `List Nat` of the cells from that address on; a cell outside the list reads
  as `0`;
* `int` fields of the queue are `Int` (they stay between `-1` and `capacity`);
* a blocking wait is an operation that returns `none`.
-/

namespace MD5Hash

/-! ## Digest engine -/

def S11 : Nat := 7
def S12 : Nat := 12
def S13 : Nat := 17
def S14 : Nat := 22
def S21 : Nat := 5
def S22 : Nat := 9
def S23 : Nat := 14
def S24 : Nat := 20
def S31 : Nat := 4
def S32 : Nat := 11
def S33 : Nat := 16
def S34 : Nat := 23
def S41 : Nat := 6
def S42 : Nat := 10
def S43 : Nat := 15
def S44 : Nat := 21

/-- Bitwise complement `~x` of a `uint32_t`. -/
def not32 (x : Nat) : Nat := (x ^^^ 0xffffffff) % 2 ^ 32

/-- Macro `F(x, y, z) = ((x) & (y)) | ((~x) & (z))`. -/
def F (x y z : Nat) : Nat := (x &&& y) ||| (not32 x &&& z)

/-- Macro `G(x, y, z) = ((x) & (z)) | ((y) & (~z))`. -/
def G (x y z : Nat) : Nat := (x &&& z) ||| (y &&& not32 z)

/-- Macro `H(x, y, z) = (x) ^ (y) ^ (z)`. -/
def H (x y z : Nat) : Nat := (x ^^^ y) ^^^ z

/-- Macro `I(x, y, z) = (y) ^ ((x) | (~z))`. -/
def I (x y z : Nat) : Nat := y ^^^ (x ||| not32 z)

/-- Macro `ROTATE_LEFT(x, n) = ((x) << (n)) | ((x) >> (32-(n)))` on `uint32_t`. -/
def ROTATE_LEFT (x n : Nat) : Nat := ((x <<< n) % 2 ^ 32) ||| (x >>> (32 - n))

/-- Macro `FF`: the new value of its first argument. -/
def FF (a b c d x s ac : Nat) : Nat :=
  let a1 := (a + (F b c d + x + ac) % 2 ^ 32) % 2 ^ 32
  let a2 := ROTATE_LEFT a1 s
  (a2 + b) % 2 ^ 32

/-- Macro `GG`: the new value of its first argument. -/
def GG (a b c d x s ac : Nat) : Nat :=
  let a1 := (a + (G b c d + x + ac) % 2 ^ 32) % 2 ^ 32
  let a2 := ROTATE_LEFT a1 s
  (a2 + b) % 2 ^ 32

/-- Macro `HH`: the new value of its first argument. -/
def HH (a b c d x s ac : Nat) : Nat :=
  let a1 := (a + (H b c d + x + ac) % 2 ^ 32) % 2 ^ 32
  let a2 := ROTATE_LEFT a1 s
  (a2 + b) % 2 ^ 32

/-- Macro `II`: the new value of its first argument. -/
def II (a b c d x s ac : Nat) : Nat :=
  let a1 := (a + (I b c d + x + ac) % 2 ^ 32) % 2 ^ 32
  let a2 := ROTATE_LEFT a1 s
  (a2 + b) % 2 ^ 32

/-- The four accumulator words `state[0..3]`. -/
structure MD5State where
  s0 : Nat
  s1 : Nat
  s2 : Nat
  s3 : Nat
deriving DecidableEq, Repr

/-- Read of the `unsigned char` cell `p[j]`. -/
def byteAt (p : List Nat) (j : Nat) : Nat := p.getD j 0 % 256

/-- Body of the decoding loop of `md5_transform`: the word `x[i]`, read from
`block[4*i .. 4*i+3]` (there `j = 4*i`). -/
def decodeWord (block : List Nat) (i : Nat) : Nat :=
  byteAt block (4 * i) ||| (byteAt block (4 * i + 1) <<< 8) |||
    (byteAt block (4 * i + 2) <<< 16) ||| (byteAt block (4 * i + 3) <<< 24)

/-- The sixty-four macro calls of `md5_transform` and the final additions,
over the decoded words `x`. -/
def md5_rounds (state : MD5State) (x : List Nat) : MD5State :=
  let a := state.s0
  let b := state.s1
  let c := state.s2
  let d := state.s3
  let a := FF a b c d (x.getD 0 0) S11 0xd76aa478
  let d := FF d a b c (x.getD 1 0) S12 0xe8c7b756
  let c := FF c d a b (x.getD 2 0) S13 0x242070db
  let b := FF b c d a (x.getD 3 0) S14 0xc1bdceee
  let a := FF a b c d (x.getD 4 0) S11 0xf57c0faf
  let d := FF d a b c (x.getD 5 0) S12 0x4787c62a
  let c := FF c d a b (x.getD 6 0) S13 0xa8304613
  let b := FF b c d a (x.getD 7 0) S14 0xfd469501
  let a := FF a b c d (x.getD 8 0) S11 0x698098d8
  let d := FF d a b c (x.getD 9 0) S12 0x8b44f7af
  let c := FF c d a b (x.getD 10 0) S13 0xffff5bb1
  let b := FF b c d a (x.getD 11 0) S14 0x895cd7be
  let a := FF a b c d (x.getD 12 0) S11 0x6b901122
  let d := FF d a b c (x.getD 13 0) S12 0xfd987193
  let c := FF c d a b (x.getD 14 0) S13 0xa679438e
  let b := FF b c d a (x.getD 15 0) S14 0x49b40821
  let a := GG a b c d (x.getD 1 0) S21 0xf61e2562
  let d := GG d a b c (x.getD 6 0) S22 0xc040b340
  let c := GG c d a b (x.getD 11 0) S23 0x265e5a51
  let b := GG b c d a (x.getD 0 0) S24 0xe9b6c7aa
  let a := GG a b c d (x.getD 5 0) S21 0xd62f105d
  let d := GG d a b c (x.getD 10 0) S22 0x2441453
  let c := GG c d a b (x.getD 15 0) S23 0xd8a1e681
  let b := GG b c d a (x.getD 4 0) S24 0xe7d3fbc8
  let a := GG a b c d (x.getD 9 0) S21 0x21e1cde6
  let d := GG d a b c (x.getD 14 0) S22 0xc33707d6
  let c := GG c d a b (x.getD 3 0) S23 0xf4d50d87
  let b := GG b c d a (x.getD 8 0) S24 0x455a14ed
  let a := GG a b c d (x.getD 13 0) S21 0xa9e3e905
  let d := GG d a b c (x.getD 2 0) S22 0xfcefa3f8
  let c := GG c d a b (x.getD 7 0) S23 0x676f02d9
  let b := GG b c d a (x.getD 12 0) S24 0x8d2a4c8a
  let a := HH a b c d (x.getD 5 0) S31 0xfffa3942
  let d := HH d a b c (x.getD 8 0) S32 0x8771f681
  let c := HH c d a b (x.getD 11 0) S33 0x6d9d6122
  let b := HH b c d a (x.getD 14 0) S34 0xfde5380c
  let a := HH a b c d (x.getD 1 0) S31 0xa4beea44
  let d := HH d a b c (x.getD 4 0) S32 0x4bdecfa9
  let c := HH c d a b (x.getD 7 0) S33 0xf6bb4b60
  let b := HH b c d a (x.getD 10 0) S34 0xbebfbc70
  let a := HH a b c d (x.getD 13 0) S31 0x289b7ec6
  let d := HH d a b c (x.getD 0 0) S32 0xeaa127fa
  let c := HH c d a b (x.getD 3 0) S33 0xd4ef3085
  let b := HH b c d a (x.getD 6 0) S34 0x4881d05
  let a := HH a b c d (x.getD 9 0) S31 0xd9d4d039
  let d := HH d a b c (x.getD 12 0) S32 0xe6db99e5
  let c := HH c d a b (x.getD 15 0) S33 0x1fa27cf8
  let b := HH b c d a (x.getD 2 0) S34 0xc4ac5665
  let a := II a b c d (x.getD 0 0) S41 0xf4292244
  let d := II d a b c (x.getD 7 0) S42 0x432aff97
  let c := II c d a b (x.getD 14 0) S43 0xab9423a7
  let b := II b c d a (x.getD 5 0) S44 0xfc93a039
  let a := II a b c d (x.getD 12 0) S41 0x655b59c3
  let d := II d a b c (x.getD 3 0) S42 0x8f0ccc92
  let c := II c d a b (x.getD 10 0) S43 0xffeff47d
  let b := II b c d a (x.getD 1 0) S44 0x85845dd1
  let a := II a b c d (x.getD 8 0) S41 0x6fa87e4f
  let d := II d a b c (x.getD 15 0) S42 0xfe2ce6e0
  let c := II c d a b (x.getD 6 0) S43 0xa3014314
  let b := II b c d a (x.getD 13 0) S44 0x4e0811a1
  let a := II a b c d (x.getD 4 0) S41 0xf7537e82
  let d := II d a b c (x.getD 11 0) S42 0xbd3af235
  let c := II c d a b (x.getD 2 0) S43 0x2ad7d2bb
  let b := II b c d a (x.getD 9 0) S44 0xeb86d391
  { s0 := (state.s0 + a) % 2 ^ 32
    s1 := (state.s1 + b) % 2 ^ 32
    s2 := (state.s2 + c) % 2 ^ 32
    s3 := (state.s3 + d) % 2 ^ 32 }

/-- Function `md5_transform(state, block)`: the new `state`. -/
def md5_transform (state : MD5State) (block : List Nat) : MD5State :=
  md5_rounds state ((List.range 16).map (decodeWord block))

/-- Struct `MD5_CTX`. -/
structure MD5_CTX where
  state : MD5State
  count0 : Nat
  count1 : Nat
  buffer : List Nat
deriving DecidableEq, Repr

/-- Function `md5_init(ctx)`: sets `count` and `state`, leaves `buffer` alone. -/
def md5_init (ctx : MD5_CTX) : MD5_CTX :=
  { ctx with
    count0 := 0
    count1 := 0
    state := { s0 := 0x67452301, s1 := 0xefcdab89, s2 := 0x98badcfe, s3 := 0x10325476 } }

/-- Call `memcpy(&dst[off], src, n)`: the array `dst` afterwards. -/
def memcpy (dst : List Nat) (off : Nat) (src : List Nat) (n : Nat) : List Nat :=
  dst.take off ++ src.take n ++ dst.drop (off + n)

/-- Loop `for (i = ...; i + 63 < len; i += 64) md5_transform(state, &input[i])`
of `md5_update`, run for at most `fuel` iterations from the given `i`: the state
and the value of `i` at the end. -/
def md5_update_loop : Nat → MD5State → List Nat → Nat → Nat → MD5State × Nat
  | 0, state, _, i, _ => (state, i)
  | fuel + 1, state, input, i, len =>
    if (i + 63) % 2 ^ 32 < len then
      md5_update_loop fuel (md5_transform state (input.drop i)) input ((i + 64) % 2 ^ 32) len
    else (state, i)

/-- Function `md5_update(ctx, input, len)`; `len` is the `unsigned int` argument.
The loop gets `len` iterations of fuel, more than it can use. -/
def md5_update (ctx : MD5_CTX) (input : List Nat) (len : Nat) : MD5_CTX :=
  let index := ctx.count0 / 8 % 64
  let count0 := (ctx.count0 + (len <<< 3) % 2 ^ 32) % 2 ^ 32
  let count1 := if count0 < (len <<< 3) % 2 ^ 32 then (ctx.count1 + 1) % 2 ^ 32 else ctx.count1
  let count1 := (count1 + len >>> 29) % 2 ^ 32
  let inputLen := 64 - index
  if len ≥ inputLen then
    let buffer := memcpy ctx.buffer index input inputLen
    let state := md5_transform ctx.state buffer
    let r := md5_update_loop len state input inputLen len
    { state := r.1, count0 := count0, count1 := count1,
      buffer := memcpy buffer 0 (input.drop r.2) ((len + 2 ^ 32 - r.2) % 2 ^ 32) }
  else
    { state := ctx.state, count0 := count0, count1 := count1,
      buffer := memcpy ctx.buffer index input len }

/-- Array `padding[64] = {0x80}` of `md5_final`. -/
def padding : List Nat := 0x80 :: List.replicate 63 0

/-- The word `count[k]`. -/
def MD5_CTX.count (ctx : MD5_CTX) (k : Nat) : Nat :=
  if k = 0 then ctx.count0 else ctx.count1

/-- Function `md5_final(digest, ctx)`: the sixteen bytes written to `digest`
and the context afterwards. -/
def md5_final (ctx : MD5_CTX) : List Nat × MD5_CTX :=
  let bits := (List.range 8).map fun i => (ctx.count (i >>> 2) >>> ((i % 4) * 8)) &&& 0xff
  let index := ctx.count0 / 8 % 64
  let padLen := if index < 56 then 56 - index else 120 - index
  let ctx := md5_update ctx padding padLen
  let ctx := md5_update ctx bits 8
  let word := fun i => [ctx.state.s0, ctx.state.s1, ctx.state.s2, ctx.state.s3].getD i 0
  ((List.range 16).map fun k => (word (k / 4) >>> ((k % 4) * 8)) &&& 0xff, ctx)

/-- A context whose staging buffer holds sixty-four zero bytes. -/
def ctxZero : MD5_CTX :=
  { state := ⟨0, 0, 0, 0⟩, count0 := 0, count1 := 0, buffer := List.replicate 64 0 }

/-! ## Reference definitions of the digest, written from the specification -/

/-- The `k` low bytes of `n`, least significant byte first (little-endian). -/
def leBytes (k n : Nat) : List Nat :=
  (List.range k).map fun i => n / 256 ^ i % 256

/-- The starting accumulator `(0x67452301, 0xefcdab89, 0x98badcfe, 0x10325476)`. -/
def md5_initial_state : MD5State :=
  { s0 := 0x67452301, s1 := 0xefcdab89, s2 := 0x98badcfe, s3 := 0x10325476 }

/-- Number of zero bytes after the `0x80` byte: the least `z` with
`(n + 1 + z) % 64 = 56` for a message of `n` bytes. -/
def zeroPadLen (n : Nat) : Nat := (119 - n % 64) % 64

/-- The padded message: `M`, the byte `0x80`, zero bytes up to a length that is
56 modulo 64, and the bit length `8 * |M|` modulo `2 ^ 64` as eight
little-endian bytes. -/
def md5_padded (M : List Nat) : List Nat :=
  M ++ [0x80] ++ List.replicate (zeroPadLen M.length) 0 ++ leBytes 8 (8 * M.length % 2 ^ 64)

/-- The `k`-th 64-byte block of `l`. -/
def block64 (l : List Nat) (k : Nat) : List Nat := (l.drop (64 * k)).take 64

/-- The first `n` 64-byte blocks of `l`. -/
def blocksUpTo (l : List Nat) (n : Nat) : List (List Nat) :=
  (List.range n).map (block64 l)

/-- The consecutive full 64-byte blocks of `l`. -/
def blocks64 (l : List Nat) : List (List Nat) :=
  blocksUpTo l (l.length / 64)

/-- The accumulator after folding `md5_transform` over the full blocks of `l`. -/
def foldBlocks (l : List Nat) : MD5State :=
  (blocks64 l).foldl md5_transform md5_initial_state

/-- The reference digest of `M`. -/
def md5_reference (M : List Nat) : List Nat :=
  let s := foldBlocks (md5_padded M)
  leBytes 4 s.s0 ++ leBytes 4 s.s1 ++ leBytes 4 s.s2 ++ leBytes 4 s.s3

/-- The sixteen message words of a block, each read as a little-endian
32-bit number. -/
def rfcWords (block : List Nat) : List Nat :=
  (List.range 16).map fun i =>
    byteAt block (4 * i) + 256 * byteAt block (4 * i + 1) + 65536 * byteAt block (4 * i + 2)
      + 16777216 * byteAt block (4 * i + 3)

/-- The standard table of sixty-four additive constants. -/
def rfcK : List Nat :=
  [0xd76aa478, 0xe8c7b756, 0x242070db, 0xc1bdceee, 0xf57c0faf, 0x4787c62a, 0xa8304613, 0xfd469501,
   0x698098d8, 0x8b44f7af, 0xffff5bb1, 0x895cd7be, 0x6b901122, 0xfd987193, 0xa679438e, 0x49b40821,
   0xf61e2562, 0xc040b340, 0x265e5a51, 0xe9b6c7aa, 0xd62f105d, 0x02441453, 0xd8a1e681, 0xe7d3fbc8,
   0x21e1cde6, 0xc33707d6, 0xf4d50d87, 0x455a14ed, 0xa9e3e905, 0xfcefa3f8, 0x676f02d9, 0x8d2a4c8a,
   0xfffa3942, 0x8771f681, 0x6d9d6122, 0xfde5380c, 0xa4beea44, 0x4bdecfa9, 0xf6bb4b60, 0xbebfbc70,
   0x289b7ec6, 0xeaa127fa, 0xd4ef3085, 0x04881d05, 0xd9d4d039, 0xe6db99e5, 0x1fa27cf8, 0xc4ac5665,
   0xf4292244, 0x432aff97, 0xab9423a7, 0xfc93a039, 0x655b59c3, 0x8f0ccc92, 0xffeff47d, 0x85845dd1,
   0x6fa87e4f, 0xfe2ce6e0, 0xa3014314, 0x4e0811a1, 0xf7537e82, 0xbd3af235, 0x2ad7d2bb, 0xeb86d391]

/-- Rotation amount of step `i`: the four amounts of its round, cycling. -/
def rfcShift (i : Nat) : Nat :=
  ([[7, 12, 17, 22], [5, 9, 14, 20], [4, 11, 16, 23], [6, 10, 15, 21]].getD (i / 16) []).getD
    (i % 4) 0

/-- Message word index of step `i`. -/
def rfcIndex (i : Nat) : Nat :=
  if i < 16 then i
  else if i < 32 then (5 * i + 1) % 16
  else if i < 48 then (3 * i + 5) % 16
  else (7 * i) % 16

/-- Complement `not(X)` of a 32-bit word, by subtraction from the all-ones word. -/
def rfcNot (x : Nat) : Nat := 0xffffffff - x % 2 ^ 32

/-- Round function of round 1 in the standard: `F(X,Y,Z) = XY v not(X) Z`. -/
def rfcF (x y z : Nat) : Nat := (x &&& y) ||| (rfcNot x &&& z)

/-- Round function of round 2 in the standard: `G(X,Y,Z) = XZ v Y not(Z)`. -/
def rfcG (x y z : Nat) : Nat := (x &&& z) ||| (y &&& rfcNot z)

/-- Round function of round 3 in the standard: `H(X,Y,Z) = X xor Y xor Z`. -/
def rfcH (x y z : Nat) : Nat := x ^^^ (y ^^^ z)

/-- Round function of round 4 in the standard: `I(X,Y,Z) = Y xor (X v not(Z))`. -/
def rfcI (x y z : Nat) : Nat := y ^^^ (x ||| rfcNot z)

/-- Left rotation of the 32-bit word `x` by `n` positions, by arithmetic: the low
`32 - n` bits go up by `n` places and the high `n` bits come down to the bottom. -/
def rfcRotl (x n : Nat) : Nat := (x * 2 ^ n) % 2 ^ 32 + x / 2 ^ (32 - n)

/-- Round function of step `i`: `F`, `G`, `H`, `I` of the standard for rounds 1 to 4. -/
def rfcFun (i b c d : Nat) : Nat :=
  if i < 16 then rfcF b c d
  else if i < 32 then rfcG b c d
  else if i < 48 then rfcH b c d
  else rfcI b c d

/-- Step `i` of the compression loop on the working words `(A, B, C, D)`:
`(A, B, C, D) ← (D, B + rotl (A + f(B,C,D) + K[i] + X[g(i)], s(i)), B, C)`. -/
def rfcStep (x : List Nat) (w : MD5State) (i : Nat) : MD5State :=
  { s0 := w.s3
    s1 := (w.s1 + rfcRotl
            ((w.s0 + rfcFun i w.s1 w.s2 w.s3 + rfcK.getD i 0 + x.getD (rfcIndex i) 0) % 2 ^ 32)
            (rfcShift i)) % 2 ^ 32
    s2 := w.s1
    s3 := w.s2 }

/-- The compression function as a 64-step loop followed by the addition of
the working words to the incoming state. -/
def rfcCompress (state : MD5State) (block : List Nat) : MD5State :=
  let w := (List.range 64).foldl (rfcStep (rfcWords block)) state
  { s0 := (state.s0 + w.s0) % 2 ^ 32
    s1 := (state.s1 + w.s1) % 2 ^ 32
    s2 := (state.s2 + w.s2) % 2 ^ 32
    s3 := (state.s3 + w.s3) % 2 ^ 32 }

/-- One step of the standard as a function of its round function `f`: the new
value of the word that the step replaces. -/
def stepForm (f : Nat → Nat → Nat → Nat) (a b c d x s ac : Nat) : Nat :=
  (b + rfcRotl ((a + f b c d + ac + x) % 2 ^ 32) s) % 2 ^ 32

/-- The relation between a context and the bytes `M` fed to it since `md5_init`:
the state is the fold of `md5_transform` over the full blocks of `M`, the first
`|M| % 64` cells of the buffer hold the bytes of `M` after its last full block,
and the two counters hold `8 * |M|` modulo `2 ^ 64`. -/
def UpdateInv (ctx : MD5_CTX) (M : List Nat) : Prop :=
  ctx.state = foldBlocks M ∧
  ctx.buffer.take (M.length % 64) = M.drop (M.length - M.length % 64) ∧
  ctx.count0 = 8 * M.length % 2 ^ 32 ∧
  ctx.count1 = 8 * M.length / 2 ^ 32 % 2 ^ 32

/-! ## Bounded task queue -/

def MAX_PATH : Nat := 4096

/-- Struct `FileTask`: the `MAX_PATH` cells of its `path` array. -/
structure FileTask where
  path : List Nat
deriving DecidableEq, Repr, Inhabited

/-- Struct `TaskQueue` without its lock and condition variables; `tasks` maps an
index to the cell `q->tasks[index]`. -/
structure TaskQueue where
  tasks : Int → FileTask
  front : Int
  rear : Int
  size : Int
  capacity : Int

/-- Function `queue_init(capacity)`; `mem` is the content of the block `malloc`
returns for `tasks`. -/
def queue_init (capacity : Int) (mem : Int → FileTask) : TaskQueue :=
  { tasks := mem, front := 0, rear := -1, size := 0, capacity := capacity }

/-- Call `strncpy(dst, src, n)`: the `n` cells it writes. It copies the bytes
of `src` before the first NUL, at most `n` of them, and fills up with NULs. -/
def strncpy (src : List Nat) (n : Nat) : List Nat :=
  let s := src.takeWhile (fun b => b ≠ 0)
  s.take n ++ List.replicate (n - s.length) 0

/-- The cell written by `queue_enqueue`: `strncpy` into cells `0 .. MAX_PATH-2`,
then `'\0'` into cell `MAX_PATH-1`. -/
def storedTask (path : List Nat) : FileTask :=
  { path := strncpy path (MAX_PATH - 1) ++ [0] }

/-- Function `queue_enqueue(q, path)`. `none`: the caller waits in the loop
`while (q->size == q->capacity)`. -/
def queue_enqueue (q : TaskQueue) (path : List Nat) : Option TaskQueue :=
  if q.size = q.capacity then none
  else
    let rear := (q.rear + 1).tmod q.capacity
    some { q with
      rear := rear
      tasks := Function.update q.tasks rear (storedTask path)
      size := q.size + 1 }

/-- Function `queue_dequeue(q, task)` under the value `should_exit` of the
global flag. `none`: the caller waits in the loop
`while (q->size == 0 && !should_exit)`. Otherwise the return value, the queue
and `*task` afterwards. -/
def queue_dequeue (should_exit : Int) (q : TaskQueue) (task : FileTask) :
    Option (Int × TaskQueue × FileTask) :=
  if q.size = 0 ∧ should_exit = 0 then none
  else if q.size = 0 then some (0, q, task)
  else
    some (1, { q with front := (q.front + 1).tmod q.capacity, size := q.size - 1 },
      q.tasks q.front)

/-- Well-formedness of the ring buffer: the bounds of `size`, `front` and
`rear`, and `rear + 1 ≡ front + size` modulo `capacity`, written without `%`. -/
def QInv (q : TaskQueue) : Prop :=
  0 ≤ q.size ∧ q.size ≤ q.capacity ∧ 0 ≤ q.front ∧ (0 < q.capacity → q.front < q.capacity) ∧
  -1 ≤ q.rear ∧ (0 < q.capacity → q.rear < q.capacity) ∧
  (q.capacity = 0 → q.rear = -1 ∧ q.front = 0) ∧
  (q.rear + 1 = q.front + q.size ∨ q.rear + 1 + q.capacity = q.front + q.size ∨
    q.rear + 1 = q.front + q.size + q.capacity)

/-- One completed operation on the shared queue: a producer's `queue_enqueue`,
a worker's `queue_dequeue`, or the driver's `should_exit = 1`. -/
inductive QOp where
  | enqueue (path : List Nat)
  | dequeue
  | shutdown

/-- The shared state with the history of a run: the tasks accepted by
`queue_enqueue` in order, and the tasks handed out by `queue_dequeue` in order. -/
structure QRun where
  q : TaskQueue
  should_exit : Int
  enqueued : List FileTask
  delivered : List FileTask

/-- The state right after `queue_init(capacity)`, `should_exit` being `0`. -/
def QRun.start (capacity : Int) (mem : Int → FileTask) : QRun :=
  { q := queue_init capacity mem, should_exit := 0, enqueued := [], delivered := [] }

/-- One operation; `none` when the operation waits instead of completing. -/
def QRun.step (s : QRun) : QOp → Option QRun
  | .enqueue path =>
    match queue_enqueue s.q path with
    | none => none
    | some q => some { s with q := q, enqueued := s.enqueued ++ [storedTask path] }
  | .dequeue =>
    match queue_dequeue s.should_exit s.q default with
    | none => none
    | some (r, q, task) =>
      if r = 1 then some { s with q := q, delivered := s.delivered ++ [task] }
      else some { s with q := q }
  | .shutdown => some { s with should_exit := 1 }

/-- A sequence of completed operations. -/
def QRun.run (s : QRun) : List QOp → Option QRun
  | [] => some s
  | op :: ops =>
    match s.step op with
    | none => none
    | some s1 => s1.run ops

/-- The tasks held by the ring buffer, from `front` on, `size` of them. -/
def TaskQueue.contents (q : TaskQueue) : List FileTask :=
  (List.range q.size.toNat).map fun (k : Nat) => q.tasks ((q.front + (k : Int)) % q.capacity)

/-- Successive `queue_enqueue` calls, none of which waits. -/
def enqueueAll (q : TaskQueue) : List (List Nat) → Option TaskQueue
  | [] => some q
  | p :: ps =>
    match queue_enqueue q p with
    | none => none
    | some q1 => enqueueAll q1 ps

/-- The return values and delivered cells of `n` successive `queue_dequeue`
calls by one worker whose local `task` starts as `task`; `none` if a call waits. -/
def dequeueN (should_exit : Int) : Nat → TaskQueue → FileTask →
    Option (List (Int × FileTask) × TaskQueue)
  | 0, q, _ => some ([], q)
  | n + 1, q, task =>
    match queue_dequeue should_exit q task with
    | none => none
    | some (r, q1, task1) =>
      match dequeueN should_exit n q1 task1 with
      | none => none
      | some (rs, q2) => some ((r, task1) :: rs, q2)



/-- A task array whose cells all hold the default task. -/
def demoMem : Int → FileTask := fun _ => default

/-- A short run: one enqueue, one dequeue, then the shutdown signal. -/
def demoOps : List QOp := [QOp.enqueue [97], QOp.dequeue, QOp.shutdown]

/-- The state `demoOps` leads to from `queue_init(2)`. -/
def demoState : QRun :=
  { q := { tasks := Function.update demoMem 0 (storedTask [97]), front := 1, rear := 0,
           size := 0, capacity := 2 }
    should_exit := 1
    enqueued := [storedTask [97]]
    delivered := [storedTask [97]] }

/-- The loop of `md5_update` once more, this time recording the blocks it hands
to `md5_transform`: `&input[i]` for every iteration, in order. -/
def md5_update_loop_calls : Nat → List Nat → Nat → Nat → List (List Nat)
  | 0, _, _, _ => []
  | fuel + 1, input, i, len =>
    if (i + 63) % 2 ^ 32 < len then
      input.drop i :: md5_update_loop_calls fuel input ((i + 64) % 2 ^ 32) len
    else []

/-- The `block` arguments of the calls of `md5_transform` that
`md5_update(ctx, input, len)` makes, in order: the filled staging buffer, then
the blocks of the loop; none when `len < inputLen`. -/
def md5_update_calls (ctx : MD5_CTX) (input : List Nat) (len : Nat) : List (List Nat) :=
  let index := ctx.count0 / 8 % 64
  let inputLen := 64 - index
  if len ≥ inputLen then
    memcpy ctx.buffer index input inputLen :: md5_update_loop_calls len input inputLen len
  else []

/-- The value `padLen` of `md5_final`. -/
def md5_final_padLen (ctx : MD5_CTX) : Nat :=
  let index := ctx.count0 / 8 % 64
  if index < 56 then 56 - index else 120 - index

/-- The `block` arguments of the calls of `md5_transform` made by the two
`md5_update` calls of `md5_final(digest, ctx)`, in order. -/
def md5_final_calls (ctx : MD5_CTX) : List (List Nat) :=
  let bits := (List.range 8).map fun i => (ctx.count (i >>> 2) >>> ((i % 4) * 8)) &&& 0xff
  let ctx1 := md5_update ctx padding (md5_final_padLen ctx)
  md5_update_calls ctx padding (md5_final_padLen ctx) ++ md5_update_calls ctx1 bits 8
/-- The state one enqueue leads to from `queue_init(2)`. -/
def demoHeld : QRun :=
  { q := { tasks := Function.update demoMem 0 (storedTask [97]), front := 0, rear := 0,
           size := 1, capacity := 2 }
    should_exit := 0
    enqueued := [storedTask [97]]
    delivered := [] }

/-! ## Hashing a file and printing the result -/

/-- The bytes of the C string held in the cells `a`: those before the first NUL. -/
def cstr (a : List Nat) : List Nat := a.takeWhile (fun b => b ≠ 0)

/-- One digit of the conversion `%x`: `'0'..'9'`, `'a'..'f'`. -/
def hexDigit (n : Nat) : Nat := if n < 10 then 48 + n else 87 + n

/-- Call `sprintf(p, "%02x", v)` for a value `v` below 256: the two characters. -/
def sprintf02x (v : Nat) : List Nat := [hexDigit (v / 16), hexDigit (v % 16)]

/-- Loop `for (i = 0; i < 16; i++) sprintf(md5str + (i * 2), "%02x", digest[i])` of
`calculate_md5` with `md5str[32] = '\0'`: the string in `md5str`. -/
def hexString (digest : List Nat) : List Nat :=
  ((List.range 16).map fun i => sprintf02x (byteAt digest i)).flatten

/-- Function `calculate_md5(filepath)`: the string returned. `fopen` stands for
the file system: `none` when `fopen` returns `NULL`, else the non-empty results
of the successive `fread(buffer, 1, 1024, f)` calls before the one that
returns 0. `ctx` is the memory of the local `MD5_CTX` before `md5_init`. -/
def calculate_md5 (fopen : List Nat → Option (List (List Nat))) (ctx : MD5_CTX)
    (filepath : List Nat) : List Nat :=
  match fopen (cstr filepath) with
  | none => List.replicate 32 48
  | some reads =>
    let ctx := md5_init ctx
    let ctx := reads.foldl (fun c buffer => md5_update c buffer buffer.length) ctx
    hexString (md5_final ctx).1

/-- Function `toupper` of the C locale. -/
def toupper (c : Nat) : Nat := if 97 ≤ c ∧ c ≤ 122 then c - 32 else c

/-- Body of the loop of `worker_thread` for a dequeued `task`: the line given to
`printf("%s %s\n", base, md5)`. `basename` is the library function. -/
def worker_line (basename : List Nat → List Nat)
    (fopen : List Nat → Option (List (List Nat))) (ctx : MD5_CTX) (task : FileTask) :
    List Nat :=
  let md5 := calculate_md5 fopen ctx task.path
  let tmp := strncpy task.path (MAX_PATH - 1) ++ [0]
  let base := basename (cstr tmp)
  let md5 := md5.map toupper
  base ++ [32] ++ md5 ++ [10]

/-- How a run of `worker_thread` stands once the lines so far are printed. -/
inductive WorkerEnd where
  /-- Call `queue_dequeue` returned 0: the loop is over and the thread exits. -/
  | exited
  /-- The thread waits inside `queue_dequeue`. -/
  | waiting
  /-- The loop goes on beyond the dequeues followed here. -/
  | running
deriving DecidableEq, Repr

/-- Function `worker_thread` on the queue under the flag value `should_exit`,
followed for at most `fuel` calls of `queue_dequeue`: the lines printed so far,
in order, how the thread stands then, and the queue. A line once printed stays
printed, whatever comes after it. -/
def worker_thread (basename : List Nat → List Nat)
    (fopen : List Nat → Option (List (List Nat))) (ctx : MD5_CTX) (should_exit : Int) :
    Nat → TaskQueue → FileTask → List (List Nat) × WorkerEnd × TaskQueue
  | 0, q, _ => ([], WorkerEnd.running, q)
  | fuel + 1, q, task =>
    match queue_dequeue should_exit q task with
    | none => ([], WorkerEnd.waiting, q)
    | some (r, q1, task1) =>
      if r = 0 then ([], WorkerEnd.exited, q1)
      else
        (worker_line basename fopen ctx task1 ::
            (worker_thread basename fopen ctx should_exit fuel q1 task1).1,
          (worker_thread basename fopen ctx should_exit fuel q1 task1).2)

/-- The line a worker prints for a task whose file cannot be opened. -/
def sentinelLine (basename : List Nat → List Nat) (task : FileTask) : List Nat :=
  basename (cstr (strncpy task.path (MAX_PATH - 1) ++ [0])) ++ [32] ++ List.replicate 32 48 ++
    [10]

/-- What the program tests on the mode `stat` fills in: `S_ISREG`, `S_ISDIR`,
or neither. -/
inductive StMode where
  | reg
  | dir
  | other
deriving DecidableEq, Repr

/-- The file system as the program sees it. `stat path`: `none` when `stat`
returns `-1`, else the mode of the file the path leads to; `stat` follows
symbolic links, so for a link this is the mode of its target. `opendir path`:
`none` when `opendir` returns `NULL`, else the names `readdir` then returns, in
order. `isLink path`: whether the entry itself is a symbolic link, which only
`lstat` would tell and the program never asks. -/
structure FileSys where
  stat : List Nat → Option StMode
  opendir : List Nat → Option (List (List Nat))
  isLink : List Nat → Bool

/-- Call `snprintf(full_path, MAX_PATH, "%s/%s", dir_path, d_name)`: the string
in `full_path`. -/
def snprintf_path (dir_path d_name : List Nat) : List Nat :=
  (dir_path ++ [47] ++ d_name).take (MAX_PATH - 1)

/-- Loop `while ((entry = readdir(dir)) != NULL)` of `add_files_from_directory`
over the names still to come; `recurse` is the recursive call. The result is the
list of paths handed to `queue_enqueue`, in call order; `none` when a recursive
call gives `none`. -/
def readdir_loop (fs : FileSys) (recurse : List Nat → Option (List (List Nat)))
    (dir_path : List Nat) : List (List Nat) → Option (List (List Nat))
  | [] => some []
  | d_name :: rest =>
    if d_name = [46] ∨ d_name = [46, 46] then readdir_loop fs recurse dir_path rest
    else
      match fs.stat (snprintf_path dir_path d_name) with
      | none => readdir_loop fs recurse dir_path rest
      | some StMode.reg =>
        (readdir_loop fs recurse dir_path rest).map fun l => snprintf_path dir_path d_name :: l
      | some StMode.dir =>
        match recurse (snprintf_path dir_path d_name) with
        | none => none
        | some sub => (readdir_loop fs recurse dir_path rest).map fun l => sub ++ l
      | some StMode.other => readdir_loop fs recurse dir_path rest

/-- Function `add_files_from_directory(dir_path)`: the paths handed to
`queue_enqueue`, in call order. `none`: the recursion is deeper than `fuel`. -/
def add_files_from_directory (fs : FileSys) : Nat → List Nat → Option (List (List Nat))
  | 0, _ => none
  | fuel + 1, dir_path =>
    match fs.opendir dir_path with
    | none => some []
    | some names => readdir_loop fs (add_files_from_directory fs fuel) dir_path names

/-- What the driver does that can be observed: a line on `stderr`, or a call of
`queue_enqueue`. -/
inductive MainEvent where
  | usage
  | createFailed (i : Nat)
  | cannotAccess (path : List Nat)
  | enqueue (path : List Nat)
  | joinFailed (i : Nat)
deriving DecidableEq, Repr

/-- Loop `for (int i = 1; i < argc; i++)` of `main` over the arguments still to
come. `none`: a directory walk needs more than `fuel`. -/
def main_loop (fs : FileSys) (fuel : Nat) : List (List Nat) → Option (List MainEvent)
  | [] => some []
  | arg :: rest =>
    match fs.stat arg with
    | none => (main_loop fs fuel rest).map fun l => MainEvent.cannotAccess arg :: l
    | some StMode.reg => (main_loop fs fuel rest).map fun l => MainEvent.enqueue arg :: l
    | some StMode.dir =>
      match add_files_from_directory fs fuel arg with
      | none => none
      | some paths => (main_loop fs fuel rest).map fun l => paths.map MainEvent.enqueue ++ l
    | some StMode.other => main_loop fs fuel rest

def NUM_THREADS : Nat := 8

/-- Function `main(argc, argv)`, `argv` with the program name first: the exit
code and the events in order. `pthread_create i` and `pthread_join i` are the
values these calls return for thread `i`. -/
def main (fs : FileSys) (fuel : Nat) (pthread_create pthread_join : Nat → Int)
    (argv : List (List Nat)) : Option (Int × List MainEvent) :=
  if argv.length < 2 then some (1, [MainEvent.usage])
  else
    match (List.range NUM_THREADS).find? fun i => pthread_create i ≠ 0 with
    | some i => some (1, [MainEvent.createFailed i])
    | none =>
      match main_loop fs fuel argv.tail with
      | none => none
      | some events =>
        match (List.range NUM_THREADS).find? fun i => pthread_join i ≠ 0 with
        | some i => some (1, events ++ [MainEvent.joinFailed i])
        | none => some (0, events)

/-- A finite directory tree as `stat` shows it: a regular file, something that
is neither a regular file nor a directory, or a directory with its named entries
(`.` and `..` left out). -/
inductive DirTree where
  | file
  | other
  | dir (entries : List (List Nat × DirTree))

/-- The mode `stat` reports for the root of a tree. -/
def DirTree.mode : DirTree → StMode
  | DirTree.file => StMode.reg
  | DirTree.other => StMode.other
  | DirTree.dir _ => StMode.dir

mutual
/-- Number of regular files in a tree. -/
def DirTree.countFiles : DirTree → Nat
  | DirTree.file => 1
  | DirTree.other => 0
  | DirTree.dir es => countFiles es
/-- Number of regular files below the entries of a directory, at any depth. -/
def countFiles : List (List Nat × DirTree) → Nat
  | [] => 0
  | (_, t) :: rest => t.countFiles + countFiles rest
end

mutual
/-- Nesting depth of directories in a tree. -/
def DirTree.depth : DirTree → Nat
  | DirTree.file => 0
  | DirTree.other => 0
  | DirTree.dir es => entriesDepth es + 1
/-- Largest depth among the entries of a directory. -/
def entriesDepth : List (List Nat × DirTree) → Nat
  | [] => 0
  | (_, t) :: rest => max t.depth (entriesDepth rest)
end

mutual
/-- The regular files of a tree found at `path`: their paths, depth first. -/
def DirTree.paths (path : List Nat) : DirTree → List (List Nat)
  | DirTree.file => [path]
  | DirTree.other => []
  | DirTree.dir es => entriesPaths path es
/-- The regular files below the entries of the directory `dir_path`: each path
is the directory path, `'/'` and the entry name, joined along the route. -/
def entriesPaths (dir_path : List Nat) : List (List Nat × DirTree) → List (List Nat)
  | [] => []
  | (name, t) :: rest => t.paths (dir_path ++ [47] ++ name) ++ entriesPaths dir_path rest
end

/-- The names `readdir` returns with `.` and `..` taken out. -/
def properNames (names : List (List Nat)) : List (List Nat) :=
  names.filter fun n => ¬ (n = [46] ∨ n = [46, 46])

mutual
/-- The file system shows the tree `t` at `path`: `stat` gives its mode, and a
directory can be opened and lists the entries of the tree, each of which is
shown at its joined path. -/
def FileSys.Shows (fs : FileSys) (path : List Nat) : DirTree → Prop
  | DirTree.file => fs.stat path = some StMode.reg
  | DirTree.other => fs.stat path = some StMode.other
  | DirTree.dir es =>
    fs.stat path = some StMode.dir ∧
    (∃ names, fs.opendir path = some names ∧ properNames names = es.map Prod.fst) ∧
    fs.ShowsEntries path es
/-- Every entry is accessible, its joined path is shorter than `MAX_PATH`, and
the file system shows its tree there. -/
def FileSys.ShowsEntries (fs : FileSys) (dir_path : List Nat) :
    List (List Nat × DirTree) → Prop
  | [] => True
  | (name, t) :: rest =>
    (dir_path ++ [47] ++ name).length < MAX_PATH ∧
    fs.Shows (dir_path ++ [47] ++ name) t ∧ fs.ShowsEntries dir_path rest
end

/-- The directory `dir_path` can be opened and holds the entries `es`. -/
def FileSys.ShowsDir (fs : FileSys) (dir_path : List Nat)
    (es : List (List Nat × DirTree)) : Prop :=
  (∃ names, fs.opendir dir_path = some names ∧ properNames names = es.map Prod.fst) ∧
  fs.ShowsEntries dir_path es

/-- A small file system: the directory `d` holds `.`, `..`, the regular file `f`,
the device `v`, the directory `s` with the regular file `g`, and the symbolic link
`l` whose target is a regular file. -/
def demoFs : FileSys :=
  { stat := fun p =>
      if p = [100] then some StMode.dir
      else if p = [100, 47, 102] then some StMode.reg
      else if p = [100, 47, 118] then some StMode.other
      else if p = [100, 47, 115] then some StMode.dir
      else if p = [100, 47, 115, 47, 103] then some StMode.reg
      else if p = [100, 47, 108] then some StMode.reg
      else none
    opendir := fun p =>
      if p = [100] then some [[46], [46, 46], [102], [118], [115], [108]]
      else if p = [100, 47, 115] then some [[46], [46, 46], [103]]
      else none
    isLink := fun p => p = [100, 47, 108] }

/-- The tree `demoFs` shows below `d`. -/
def demoTree : List (List Nat × DirTree) :=
  [([102], DirTree.file), ([118], DirTree.other),
   ([115], DirTree.dir [([103], DirTree.file)]), ([108], DirTree.file)]

/-! ## The shutdown signal under interleaving -/

/-- Where a worker stands in `queue_dequeue`. -/
inductive WorkerPc where
  /-- Before `pthread_mutex_lock(&q->lock)`, line 66. -/
  | lock
  /-- Holding the lock, before the test `q->size == 0 && !should_exit`, line 68. -/
  | test
  /-- Holding the lock, the test was true, before `pthread_cond_wait`, line 69. -/
  | wait
  /-- Inside `pthread_cond_wait`: the lock is released, waiting for `not_empty`. -/
  | sleeping
  /-- Inside `pthread_cond_wait`: signalled, taking the lock again. -/
  | woken
  /-- Has unlocked and returned `r`, lines 73-74 and 82-83. -/
  | returned (r : Int)
deriving DecidableEq, Repr

/-- Where the driver stands at the end of `main`. -/
inductive MainPc where
  /-- Before `should_exit = 1`, line 401. -/
  | setFlag
  /-- Before `pthread_cond_broadcast(&queue->not_empty)`, line 402. -/
  | broadcast
  /-- In `pthread_join`, line 405. -/
  | join
  /-- All threads joined. -/
  | done
deriving DecidableEq, Repr

/-- The driver and one worker once every argument has been handled: the fields
they share and where each of them stands. `locked`: `q->lock` is held, which
only the worker ever does. -/
structure Shutdown where
  size : Int
  should_exit : Int
  locked : Bool
  worker : WorkerPc
  main : MainPc
deriving DecidableEq, Repr

/-- One step of the worker; `none` when it cannot move. After a task
(`returned 1`) `worker_thread` calls `queue_dequeue` again; after `returned 0`
the thread ends. -/
def Shutdown.workerStep (s : Shutdown) : Option Shutdown :=
  match s.worker with
  | WorkerPc.lock => if s.locked then none else some { s with locked := true, worker := WorkerPc.test }
  | WorkerPc.test =>
    if s.size = 0 ∧ s.should_exit = 0 then some { s with worker := WorkerPc.wait }
    else if s.size = 0 then some { s with locked := false, worker := WorkerPc.returned 0 }
    else some { s with size := s.size - 1, locked := false, worker := WorkerPc.returned 1 }
  | WorkerPc.wait => some { s with locked := false, worker := WorkerPc.sleeping }
  | WorkerPc.sleeping => none
  | WorkerPc.woken =>
    if s.locked then none else some { s with locked := true, worker := WorkerPc.test }
  | WorkerPc.returned r => if r = 0 then none else some { s with worker := WorkerPc.lock }

/-- One step of the driver; `none` when it cannot move. Neither the assignment
nor the broadcast takes the lock. -/
def Shutdown.mainStep (s : Shutdown) : Option Shutdown :=
  match s.main with
  | MainPc.setFlag => some { s with should_exit := 1, main := MainPc.broadcast }
  | MainPc.broadcast =>
    some { s with
      worker := if s.worker = WorkerPc.sleeping then WorkerPc.woken else s.worker
      main := MainPc.join }
  | MainPc.join => if s.worker = WorkerPc.returned 0 then some { s with main := MainPc.done } else none
  | MainPc.done => none

/-- A schedule: `true` lets the worker take a step, `false` the driver. `none`
when the thread chosen cannot move. -/
def Shutdown.run (s : Shutdown) : List Bool → Option Shutdown
  | [] => some s
  | w :: rest =>
    match (if w then s.workerStep else s.mainStep) with
    | none => none
    | some s1 => s1.run rest

/-- The queue is empty, the worker enters `queue_dequeue`, the driver is about
to signal shutdown. -/
def Shutdown.start : Shutdown :=
  { size := 0, should_exit := 0, locked := false, worker := WorkerPc.lock, main := MainPc.setFlag }

end MD5Hash

namespace DiningPhilosophers

/-! ## Argument parsing of the dining philosophers program
(`src/E/Extra/DiningPhilosophers.c`)

A C string is the list of its characters before the terminator; reading past
them gives NUL. `double` values are kept abstract: `atof` and the test `<= 0`
are parameters. -/

/-- The character NUL. -/
def NUL : Char := Char.ofNat 0

/-- The test `strncmp(a, b, n) == 0`: at most `n` characters are compared, and
the comparison stops at the first difference or at a NUL. -/
def strncmp_zero : List Char → List Char → Nat → Bool
  | _, _, 0 => true
  | a, b, n + 1 =>
    if a.headD NUL ≠ b.headD NUL then false
    else if a.headD NUL = NUL then true
    else strncmp_zero a.tail b.tail n

/-- Struct `Config`, its `double` fields of an abstract type `V`. -/
structure Config (V : Type) where
  run_time_sec : V
  max_think_sec : V
  max_eat_sec : V
  timeout_sec : V
  starvation_limit_sec : V

/-- How `parse_args` ends: it returns a `Config`, or leaves through `exit`. -/
inductive ParseResult (V : Type) where
  /-- Statement `return cfg`. -/
  | ok (cfg : Config V)
  /-- Branch `--help` or `-h`: `print_usage(); exit(0)`. -/
  | help
  /-- Branch `Unknown arg: %s`: `print_usage(); exit(1)`. -/
  | unknownArg (arg : List Char)
  /-- Message `All time parameters must be positive.` and `exit(1)`. -/
  | notPositive

/-- Loop `for (int i = 1; i < argc; ++i)` of `parse_args` over the arguments
still to come; `ok cfg` when the loop ends. `arg + k` is `arg.drop k`. -/
def parse_loop {V : Type} (atof : List Char → V) (cfg : Config V) :
    List (List Char) → ParseResult V
  | [] => ParseResult.ok cfg
  | arg :: rest =>
    if strncmp_zero arg "--run-time=".toList 11 then
      parse_loop atof { cfg with run_time_sec := atof (arg.drop 11) } rest
    else if strncmp_zero arg "--max-think=".toList 12 then
      parse_loop atof { cfg with max_think_sec := atof (arg.drop 12) } rest
    else if strncmp_zero arg "--max-eat=".toList 11 then
      parse_loop atof { cfg with max_eat_sec := atof (arg.drop 11) } rest
    else if strncmp_zero arg "--timeout=".toList 10 then
      parse_loop atof { cfg with timeout_sec := atof (arg.drop 10) } rest
    else if strncmp_zero arg "--starvation-limit=".toList 20 then
      parse_loop atof { cfg with starvation_limit_sec := atof (arg.drop 20) } rest
    else if arg = "--help".toList ∨ arg = "-h".toList then ParseResult.help
    else ParseResult.unknownArg arg

/-- Function `parse_args(argc, argv)`, `argv` with the program name first.
`defaults` is the initialiser `{10.0, 1.5, 1.0, 1.0, 5.0}`, `le_zero v` the test
`v <= 0`. -/
def parse_args {V : Type} (atof : List Char → V) (le_zero : V → Bool) (defaults : Config V)
    (argv : List (List Char)) : ParseResult V :=
  match parse_loop atof defaults argv.tail with
  | ParseResult.ok cfg =>
    if le_zero cfg.run_time_sec ∨ le_zero cfg.max_think_sec ∨ le_zero cfg.max_eat_sec ∨
        le_zero cfg.timeout_sec ∨ le_zero cfg.starvation_limit_sec then
      ParseResult.notPositive
    else ParseResult.ok cfg
  | r => r

end DiningPhilosophers

namespace MD5Hash

/-! ## The compression function -/

/-- The common shape of the four step macros. -/
theorem FF_eq_step (a b c d x s ac : Nat) :
    FF a b c d x s ac = (b + ROTATE_LEFT ((a + F b c d + ac + x) % 2 ^ 32) s) % 2 ^ 32 := by
  simp only [FF]
  rw [Nat.add_comm]
  congr 3
  omega

theorem GG_eq_step (a b c d x s ac : Nat) :
    GG a b c d x s ac = (b + ROTATE_LEFT ((a + G b c d + ac + x) % 2 ^ 32) s) % 2 ^ 32 := by
  simp only [GG]
  rw [Nat.add_comm]
  congr 3
  omega

theorem HH_eq_step (a b c d x s ac : Nat) :
    HH a b c d x s ac = (b + ROTATE_LEFT ((a + H b c d + ac + x) % 2 ^ 32) s) % 2 ^ 32 := by
  simp only [HH]
  rw [Nat.add_comm]
  congr 3
  omega

theorem II_eq_step (a b c d x s ac : Nat) :
    II a b c d x s ac = (b + ROTATE_LEFT ((a + I b c d + ac + x) % 2 ^ 32) s) % 2 ^ 32 := by
  simp only [II]
  rw [Nat.add_comm]
  congr 3
  omega

/-- The macro `~x` on a 32-bit word is the complement of the standard. -/
theorem not32_eq_rfcNot (x : Nat) : not32 x = rfcNot x := by
  unfold not32 rfcNot
  have hy : x % 2 ^ 32 < 2 ^ 32 := Nat.mod_lt _ (by norm_num)
  have e : 0xffffffff - x % 2 ^ 32 = 2 ^ 32 - (x % 2 ^ 32 + 1) := by omega
  have m : (0xffffffff : Nat) = 2 ^ 32 - 1 := by norm_num
  rw [e, m]
  apply Nat.eq_of_testBit_eq
  intro i
  rw [Nat.testBit_two_pow_sub_succ hy, Nat.testBit_mod_two_pow, Nat.testBit_mod_two_pow,
    Nat.testBit_xor, Nat.testBit_two_pow_sub_one]
  cases decide (i < 32) <;> cases x.testBit i <;> rfl

theorem F_eq_rfcF (x y z : Nat) : F x y z = rfcF x y z := by
  unfold F rfcF
  rw [not32_eq_rfcNot]

theorem G_eq_rfcG (x y z : Nat) : G x y z = rfcG x y z := by
  unfold G rfcG
  rw [not32_eq_rfcNot]

theorem H_eq_rfcH (x y z : Nat) : H x y z = rfcH x y z := by
  unfold H rfcH
  exact Nat.xor_assoc x y z

theorem I_eq_rfcI (x y z : Nat) : I x y z = rfcI x y z := by
  unfold I rfcI
  rw [not32_eq_rfcNot]

/-- The macro `ROTATE_LEFT` on a 32-bit word is the left rotation of the standard. -/
theorem ROTATE_LEFT_eq_rfcRotl (x n : Nat) (hx : x < 2 ^ 32) :
    ROTATE_LEFT x n = rfcRotl x n := by
  unfold ROTATE_LEFT rfcRotl
  rw [Nat.shiftLeft_eq, Nat.shiftRight_eq_div_pow]
  by_cases hn : n ≤ 32
  · have hp : (2 : Nat) ^ 32 = 2 ^ n * 2 ^ (32 - n) := by
      rw [← Nat.pow_add]
      congr 1
      omega
    have hlt : x / 2 ^ (32 - n) < 2 ^ n := by
      apply Nat.div_lt_of_lt_mul
      rw [Nat.mul_comm, ← hp]
      exact hx
    have hm : x * 2 ^ n % 2 ^ 32 = 2 ^ n * (x % 2 ^ (32 - n)) := by
      rw [Nat.mul_comm x, hp, Nat.mul_mod_mul_left]
    rw [hm]
    exact (Nat.mul_add_lt_is_or hlt _).symm
  · have h0 : 32 - n = 0 := by omega
    have hz : x * 2 ^ n % 2 ^ 32 = 0 := by
      have hp : (2 : Nat) ^ n = 2 ^ 32 * 2 ^ (n - 32) := by
        rw [← Nat.pow_add]
        congr 1
        omega
      rw [hp, ← Nat.mul_assoc, Nat.mul_comm x, Nat.mul_assoc]
      exact Nat.mul_mod_right _ _
    rw [h0, hz]
    simp

/-- The rotation and the round functions of the standard on sample words: the top bit
comes round to the bottom, `F` selects, `G` selects by its third word, `H` is the parity
and `I` is `Y xor (X or not Z)`. -/
theorem rfc_samples :
    rfcRotl 0x80000001 1 = 0x00000003 ∧ rfcRotl 0x12345678 8 = 0x34567812 ∧
    rfcF 0xffff0000 0x12345678 0x9abcdef0 = 0x1234def0 ∧
    rfcG 0x12345678 0x9abcdef0 0xffff0000 = 0x1234def0 ∧
    rfcH 0x0000000f 0x000000f0 0x000000ff = 0 ∧
    rfcI 0x00000000 0x000000ff 0xffffffff = 0x000000ff := by
  decide

theorem FF_eq : FF = stepForm rfcF := by
  funext a b c d x s ac
  rw [FF_eq_step, F_eq_rfcF, ROTATE_LEFT_eq_rfcRotl _ _ (Nat.mod_lt _ (by norm_num))]
  rfl

theorem GG_eq : GG = stepForm rfcG := by
  funext a b c d x s ac
  rw [GG_eq_step, G_eq_rfcG, ROTATE_LEFT_eq_rfcRotl _ _ (Nat.mod_lt _ (by norm_num))]
  rfl

theorem HH_eq : HH = stepForm rfcH := by
  funext a b c d x s ac
  rw [HH_eq_step, H_eq_rfcH, ROTATE_LEFT_eq_rfcRotl _ _ (Nat.mod_lt _ (by norm_num))]
  rfl

theorem II_eq : II = stepForm rfcI := by
  funext a b c d x s ac
  rw [II_eq_step, I_eq_rfcI, ROTATE_LEFT_eq_rfcRotl _ _ (Nat.mod_lt _ (by norm_num))]
  rfl

/-- The sixty-four unrolled macro calls are the 64-step loop over the same words. -/
theorem md5_rounds_eq_loop (state : MD5State) (x : List Nat) :
    md5_rounds state x =
      (let w := (List.range 64).foldl (rfcStep x) state
       ({ s0 := (state.s0 + w.s0) % 2 ^ 32, s1 := (state.s1 + w.s1) % 2 ^ 32,
          s2 := (state.s2 + w.s2) % 2 ^ 32, s3 := (state.s3 + w.s3) % 2 ^ 32 } : MD5State)) := by
  unfold md5_rounds
  rw [FF_eq, GG_eq, HH_eq, II_eq]
  lift_lets
  intro a b c d v0 v1 v2 v3 v4 v5 v6 v7 v8 v9 v10 v11 v12 v13 v14 v15 v16 v17 v18 v19 v20 v21 v22 v23 v24 v25 v26 v27 v28 v29 v30 v31 v32 v33 v34 v35 v36 v37 v38 v39 v40 v41 v42 v43 v44 v45 v46 v47 v48 v49 v50 v51 v52 v53 v54 v55 v56 v57 v58 v59 v60 v61 v62 v63
  have hs : state = ⟨a, b, c, d⟩ := rfl
  have e0 : rfcStep x ⟨a, b, c, d⟩ 0 = ⟨d, v0, b, c⟩ := rfl
  have e1 : rfcStep x ⟨d, v0, b, c⟩ 1 = ⟨c, v1, v0, b⟩ := rfl
  have e2 : rfcStep x ⟨c, v1, v0, b⟩ 2 = ⟨b, v2, v1, v0⟩ := rfl
  have e3 : rfcStep x ⟨b, v2, v1, v0⟩ 3 = ⟨v0, v3, v2, v1⟩ := rfl
  have e4 : rfcStep x ⟨v0, v3, v2, v1⟩ 4 = ⟨v1, v4, v3, v2⟩ := rfl
  have e5 : rfcStep x ⟨v1, v4, v3, v2⟩ 5 = ⟨v2, v5, v4, v3⟩ := rfl
  have e6 : rfcStep x ⟨v2, v5, v4, v3⟩ 6 = ⟨v3, v6, v5, v4⟩ := rfl
  have e7 : rfcStep x ⟨v3, v6, v5, v4⟩ 7 = ⟨v4, v7, v6, v5⟩ := rfl
  have e8 : rfcStep x ⟨v4, v7, v6, v5⟩ 8 = ⟨v5, v8, v7, v6⟩ := rfl
  have e9 : rfcStep x ⟨v5, v8, v7, v6⟩ 9 = ⟨v6, v9, v8, v7⟩ := rfl
  have e10 : rfcStep x ⟨v6, v9, v8, v7⟩ 10 = ⟨v7, v10, v9, v8⟩ := rfl
  have e11 : rfcStep x ⟨v7, v10, v9, v8⟩ 11 = ⟨v8, v11, v10, v9⟩ := rfl
  have e12 : rfcStep x ⟨v8, v11, v10, v9⟩ 12 = ⟨v9, v12, v11, v10⟩ := rfl
  have e13 : rfcStep x ⟨v9, v12, v11, v10⟩ 13 = ⟨v10, v13, v12, v11⟩ := rfl
  have e14 : rfcStep x ⟨v10, v13, v12, v11⟩ 14 = ⟨v11, v14, v13, v12⟩ := rfl
  have e15 : rfcStep x ⟨v11, v14, v13, v12⟩ 15 = ⟨v12, v15, v14, v13⟩ := rfl
  have e16 : rfcStep x ⟨v12, v15, v14, v13⟩ 16 = ⟨v13, v16, v15, v14⟩ := rfl
  have e17 : rfcStep x ⟨v13, v16, v15, v14⟩ 17 = ⟨v14, v17, v16, v15⟩ := rfl
  have e18 : rfcStep x ⟨v14, v17, v16, v15⟩ 18 = ⟨v15, v18, v17, v16⟩ := rfl
  have e19 : rfcStep x ⟨v15, v18, v17, v16⟩ 19 = ⟨v16, v19, v18, v17⟩ := rfl
  have e20 : rfcStep x ⟨v16, v19, v18, v17⟩ 20 = ⟨v17, v20, v19, v18⟩ := rfl
  have e21 : rfcStep x ⟨v17, v20, v19, v18⟩ 21 = ⟨v18, v21, v20, v19⟩ := rfl
  have e22 : rfcStep x ⟨v18, v21, v20, v19⟩ 22 = ⟨v19, v22, v21, v20⟩ := rfl
  have e23 : rfcStep x ⟨v19, v22, v21, v20⟩ 23 = ⟨v20, v23, v22, v21⟩ := rfl
  have e24 : rfcStep x ⟨v20, v23, v22, v21⟩ 24 = ⟨v21, v24, v23, v22⟩ := rfl
  have e25 : rfcStep x ⟨v21, v24, v23, v22⟩ 25 = ⟨v22, v25, v24, v23⟩ := rfl
  have e26 : rfcStep x ⟨v22, v25, v24, v23⟩ 26 = ⟨v23, v26, v25, v24⟩ := rfl
  have e27 : rfcStep x ⟨v23, v26, v25, v24⟩ 27 = ⟨v24, v27, v26, v25⟩ := rfl
  have e28 : rfcStep x ⟨v24, v27, v26, v25⟩ 28 = ⟨v25, v28, v27, v26⟩ := rfl
  have e29 : rfcStep x ⟨v25, v28, v27, v26⟩ 29 = ⟨v26, v29, v28, v27⟩ := rfl
  have e30 : rfcStep x ⟨v26, v29, v28, v27⟩ 30 = ⟨v27, v30, v29, v28⟩ := rfl
  have e31 : rfcStep x ⟨v27, v30, v29, v28⟩ 31 = ⟨v28, v31, v30, v29⟩ := rfl
  have e32 : rfcStep x ⟨v28, v31, v30, v29⟩ 32 = ⟨v29, v32, v31, v30⟩ := rfl
  have e33 : rfcStep x ⟨v29, v32, v31, v30⟩ 33 = ⟨v30, v33, v32, v31⟩ := rfl
  have e34 : rfcStep x ⟨v30, v33, v32, v31⟩ 34 = ⟨v31, v34, v33, v32⟩ := rfl
  have e35 : rfcStep x ⟨v31, v34, v33, v32⟩ 35 = ⟨v32, v35, v34, v33⟩ := rfl
  have e36 : rfcStep x ⟨v32, v35, v34, v33⟩ 36 = ⟨v33, v36, v35, v34⟩ := rfl
  have e37 : rfcStep x ⟨v33, v36, v35, v34⟩ 37 = ⟨v34, v37, v36, v35⟩ := rfl
  have e38 : rfcStep x ⟨v34, v37, v36, v35⟩ 38 = ⟨v35, v38, v37, v36⟩ := rfl
  have e39 : rfcStep x ⟨v35, v38, v37, v36⟩ 39 = ⟨v36, v39, v38, v37⟩ := rfl
  have e40 : rfcStep x ⟨v36, v39, v38, v37⟩ 40 = ⟨v37, v40, v39, v38⟩ := rfl
  have e41 : rfcStep x ⟨v37, v40, v39, v38⟩ 41 = ⟨v38, v41, v40, v39⟩ := rfl
  have e42 : rfcStep x ⟨v38, v41, v40, v39⟩ 42 = ⟨v39, v42, v41, v40⟩ := rfl
  have e43 : rfcStep x ⟨v39, v42, v41, v40⟩ 43 = ⟨v40, v43, v42, v41⟩ := rfl
  have e44 : rfcStep x ⟨v40, v43, v42, v41⟩ 44 = ⟨v41, v44, v43, v42⟩ := rfl
  have e45 : rfcStep x ⟨v41, v44, v43, v42⟩ 45 = ⟨v42, v45, v44, v43⟩ := rfl
  have e46 : rfcStep x ⟨v42, v45, v44, v43⟩ 46 = ⟨v43, v46, v45, v44⟩ := rfl
  have e47 : rfcStep x ⟨v43, v46, v45, v44⟩ 47 = ⟨v44, v47, v46, v45⟩ := rfl
  have e48 : rfcStep x ⟨v44, v47, v46, v45⟩ 48 = ⟨v45, v48, v47, v46⟩ := rfl
  have e49 : rfcStep x ⟨v45, v48, v47, v46⟩ 49 = ⟨v46, v49, v48, v47⟩ := rfl
  have e50 : rfcStep x ⟨v46, v49, v48, v47⟩ 50 = ⟨v47, v50, v49, v48⟩ := rfl
  have e51 : rfcStep x ⟨v47, v50, v49, v48⟩ 51 = ⟨v48, v51, v50, v49⟩ := rfl
  have e52 : rfcStep x ⟨v48, v51, v50, v49⟩ 52 = ⟨v49, v52, v51, v50⟩ := rfl
  have e53 : rfcStep x ⟨v49, v52, v51, v50⟩ 53 = ⟨v50, v53, v52, v51⟩ := rfl
  have e54 : rfcStep x ⟨v50, v53, v52, v51⟩ 54 = ⟨v51, v54, v53, v52⟩ := rfl
  have e55 : rfcStep x ⟨v51, v54, v53, v52⟩ 55 = ⟨v52, v55, v54, v53⟩ := rfl
  have e56 : rfcStep x ⟨v52, v55, v54, v53⟩ 56 = ⟨v53, v56, v55, v54⟩ := rfl
  have e57 : rfcStep x ⟨v53, v56, v55, v54⟩ 57 = ⟨v54, v57, v56, v55⟩ := rfl
  have e58 : rfcStep x ⟨v54, v57, v56, v55⟩ 58 = ⟨v55, v58, v57, v56⟩ := rfl
  have e59 : rfcStep x ⟨v55, v58, v57, v56⟩ 59 = ⟨v56, v59, v58, v57⟩ := rfl
  have e60 : rfcStep x ⟨v56, v59, v58, v57⟩ 60 = ⟨v57, v60, v59, v58⟩ := rfl
  have e61 : rfcStep x ⟨v57, v60, v59, v58⟩ 61 = ⟨v58, v61, v60, v59⟩ := rfl
  have e62 : rfcStep x ⟨v58, v61, v60, v59⟩ 62 = ⟨v59, v62, v61, v60⟩ := rfl
  have e63 : rfcStep x ⟨v59, v62, v61, v60⟩ 63 = ⟨v60, v63, v62, v61⟩ := rfl
  rw [hs]
  simp only [List.range_succ, List.range_zero, List.foldl_append, List.foldl_cons,
    List.foldl_nil, List.nil_append, e0, e1, e2, e3, e4, e5, e6, e7, e8, e9, e10, e11, e12, e13, e14, e15, e16, e17, e18, e19, e20, e21, e22, e23, e24, e25, e26, e27, e28, e29, e30, e31, e32, e33, e34, e35, e36, e37, e38, e39, e40, e41, e42, e43, e44, e45, e46, e47, e48, e49, e50, e51, e52, e53, e54, e55, e56, e57, e58, e59, e60, e61, e62, e63]

theorem byteAt_lt (p : List Nat) (j : Nat) : byteAt p j < 256 := by
  unfold byteAt; omega

/-- Four bytes joined by shifts and ors are the little-endian number. -/
theorem or_shift_eq_add (a b c d : Nat) (ha : a < 256) (hb : b < 256) (hc : c < 256) :
    a ||| (b <<< 8) ||| (c <<< 16) ||| (d <<< 24) = a + 256 * b + 65536 * c + 16777216 * d := by
  have h1 : a ||| (b <<< 8) = a + 256 * b := by
    rw [Nat.shiftLeft_eq, Nat.lor_comm, Nat.mul_comm]
    have := Nat.mul_add_lt_is_or (i := 8) (b := a) (by omega) b
    omega
  have h2 : (a + 256 * b) ||| (c <<< 16) = a + 256 * b + 65536 * c := by
    rw [Nat.shiftLeft_eq, Nat.lor_comm, Nat.mul_comm]
    have := Nat.mul_add_lt_is_or (i := 16) (b := a + 256 * b) (by omega) c
    omega
  have h3 : (a + 256 * b + 65536 * c) ||| (d <<< 24) = a + 256 * b + 65536 * c + 16777216 * d := by
    rw [Nat.shiftLeft_eq, Nat.lor_comm, Nat.mul_comm]
    have := Nat.mul_add_lt_is_or (i := 24) (b := a + 256 * b + 65536 * c) (by omega) d
    omega
  rw [h1, h2, h3]

theorem decodeWord_eq (block : List Nat) (i : Nat) :
    decodeWord block i =
      byteAt block (4 * i) + 256 * byteAt block (4 * i + 1) + 65536 * byteAt block (4 * i + 2)
        + 16777216 * byteAt block (4 * i + 3) :=
  or_shift_eq_add _ _ _ _ (byteAt_lt _ _) (byteAt_lt _ _) (byteAt_lt _ _)

theorem decode_eq_rfcWords (block : List Nat) :
    (List.range 16).map (decodeWord block) = rfcWords block := by
  unfold rfcWords
  exact List.map_congr_left fun i _ => decodeWord_eq block i

/-- C5. For every state and every block, the macro-unrolled `md5_transform` is the
standard compression function: sixteen little-endian message words, sixty-four steps
with the round functions `F`, `G`, `H`, `I` of the standard (`rfcF` to `rfcI`, written
apart from the macros), its word indices, additive constants and rotation amounts, the
left rotation of 32-bit words (`rfcRotl`, by arithmetic), all sums modulo `2 ^ 32`, and
the final addition to the incoming state. -/
theorem md5_transform_eq_rfcCompress (state : MD5State) (block : List Nat) :
    md5_transform state block = rfcCompress state block := by
  unfold md5_transform rfcCompress
  rw [md5_rounds_eq_loop, decode_eq_rfcWords]

/-! ## The update invariant -/

theorem byteAt_take (l : List Nat) (j : Nat) (h : j < 64) :
    byteAt (l.take 64) j = byteAt l j := by
  simp [byteAt, List.getElem?_take_of_lt h]

theorem decodeWord_take (l : List Nat) (i : Nat) (h : i < 16) :
    decodeWord (l.take 64) i = decodeWord l i := by
  unfold decodeWord
  rw [byteAt_take l (4 * i) (by omega), byteAt_take l (4 * i + 1) (by omega),
    byteAt_take l (4 * i + 2) (by omega), byteAt_take l (4 * i + 3) (by omega)]

/-- `md5_transform` reads only the first sixty-four cells of its block. -/
theorem md5_transform_take (s : MD5State) (l : List Nat) :
    md5_transform s (l.take 64) = md5_transform s l := by
  unfold md5_transform
  congr 1
  exact List.map_congr_left fun i hi => decodeWord_take l i (List.mem_range.1 hi)

theorem md5_transform_congr (s : MD5State) {l1 l2 : List Nat} (h : l1.take 64 = l2.take 64) :
    md5_transform s l1 = md5_transform s l2 := by
  rw [← md5_transform_take s l1, h, md5_transform_take]

theorem blocksUpTo_succ (l : List Nat) (n : Nat) :
    blocksUpTo l (n + 1) = blocksUpTo l n ++ [block64 l n] := by
  simp [blocksUpTo, List.range_succ]

theorem block64_append (M Y : List Nat) (k : Nat) (h : 64 * (k + 1) ≤ M.length) :
    block64 (M ++ Y) k = block64 M k := by
  unfold block64
  rw [List.drop_append_of_le_length (by omega), List.take_append_of_le_length]
  simp only [List.length_drop]
  omega

theorem blocksUpTo_append (M Y : List Nat) (n : Nat) (h : 64 * n ≤ M.length) :
    blocksUpTo (M ++ Y) n = blocksUpTo M n := by
  unfold blocksUpTo
  apply List.map_congr_left
  intro k hk
  have := List.mem_range.1 hk
  exact block64_append M Y k (by omega)

/-- The two 32-bit counters add the bit length of a chunk as one 64-bit number. -/
theorem count_update (p len c0 c1 : Nat) (hc0 : c0 = 8 * p % 2 ^ 32)
    (hc1 : c1 = 8 * p / 2 ^ 32 % 2 ^ 32) :
    (c0 + (len <<< 3) % 2 ^ 32) % 2 ^ 32 = 8 * (p + len) % 2 ^ 32 ∧
    ((if (c0 + (len <<< 3) % 2 ^ 32) % 2 ^ 32 < (len <<< 3) % 2 ^ 32 then (c1 + 1) % 2 ^ 32
        else c1) + len >>> 29) % 2 ^ 32 = 8 * (p + len) / 2 ^ 32 % 2 ^ 32 := by
  rw [Nat.shiftLeft_eq, Nat.shiftRight_eq_div_pow]
  subst hc0 hc1
  norm_num
  constructor
  · omega
  · split <;> omega

/-- The block loop of `md5_update`, started on a block boundary of the whole
message `P` with enough fuel, stops at the last block boundary within `len` and
has folded every block up to there. -/
theorem md5_update_loop_spec (P X : List Nat) (p len : Nat) (hwrap : p % 64 + len < 2 ^ 32)
    (hblk : ∀ i, i + 64 ≤ len → (X.drop i).take 64 = (P.drop (p + i)).take 64) :
    ∀ (fuel : Nat) (s : MD5State) (i n : Nat), p + i = 64 * n → i ≤ len →
      (len - i) / 64 < fuel →
      s = (blocksUpTo P n).foldl md5_transform md5_initial_state →
      (md5_update_loop fuel s X i len).2 ≤ len ∧
      len < (md5_update_loop fuel s X i len).2 + 64 ∧
      (p + (md5_update_loop fuel s X i len).2) % 64 = 0 ∧
      (md5_update_loop fuel s X i len).1 =
        (blocksUpTo P ((p + (md5_update_loop fuel s X i len).2) / 64)).foldl md5_transform
          md5_initial_state := by
  intro fuel
  induction fuel with
  | zero => intro s i n _ _ hf; omega
  | succ fuel ih =>
    intro s i n hn hi hf hs
    have h63 : (i + 63) % 2 ^ 32 = i + 63 := by
      apply Nat.mod_eq_of_lt
      norm_num at hwrap ⊢
      omega
    unfold md5_update_loop
    rw [h63]
    by_cases hc : i + 63 < len
    · rw [if_pos hc]
      have h64 : (i + 64) % 2 ^ 32 = i + 64 := by
        apply Nat.mod_eq_of_lt
        norm_num at hwrap ⊢
        omega
      rw [h64]
      apply ih _ (i + 64) (n + 1) (by omega) (by omega) (by omega)
      rw [blocksUpTo_succ, List.foldl_append, ← hs]
      simp only [List.foldl_cons, List.foldl_nil]
      apply md5_transform_congr
      rw [hblk i (by omega), block64, List.take_take, hn]
      simp
    · rw [if_neg hc]
      refine ⟨hi, by omega, by omega, ?_⟩
      have : (p + i) / 64 = n := by omega
      simp only [this, hs]

theorem index_eq (c0 p : Nat) (hc0 : c0 = 8 * p % 2 ^ 32) : c0 / 8 % 64 = p % 64 := by
  subst hc0
  norm_num
  omega

theorem md5_update_count0 (ctx : MD5_CTX) (X : List Nat) (len : Nat) :
    (md5_update ctx X len).count0 = (ctx.count0 + (len <<< 3) % 2 ^ 32) % 2 ^ 32 := by
  unfold md5_update
  simp only []
  split <;> rfl

theorem md5_update_count1 (ctx : MD5_CTX) (X : List Nat) (len : Nat) :
    (md5_update ctx X len).count1 =
      ((if (ctx.count0 + (len <<< 3) % 2 ^ 32) % 2 ^ 32 < (len <<< 3) % 2 ^ 32
          then (ctx.count1 + 1) % 2 ^ 32 else ctx.count1) + len >>> 29) % 2 ^ 32 := by
  unfold md5_update
  simp only []
  split <;> rfl

/-- The state and buffer part of the update invariant. -/
theorem md5_update_state_buffer (ctx : MD5_CTX) (M X : List Nat) (len : Nat)
    (hs : ctx.state = foldBlocks M)
    (hb : ctx.buffer.take (M.length % 64) = M.drop (M.length - M.length % 64))
    (hidx : ctx.count0 / 8 % 64 = M.length % 64)
    (hlen : len ≤ X.length) (hwrap : M.length % 64 + len < 2 ^ 32) :
    (md5_update ctx X len).state = foldBlocks (M ++ X.take len) ∧
    (md5_update ctx X len).buffer.take ((M ++ X.take len).length % 64) =
      (M ++ X.take len).drop ((M ++ X.take len).length - (M ++ X.take len).length % 64) := by
  have hPlen : (M ++ X.take len).length = M.length + len := by
    simp [List.length_append, List.length_take, Nat.min_eq_left hlen]
  have hk : M.length % 64 < 64 := Nat.mod_lt _ (by norm_num)
  unfold md5_update
  simp only [hidx]
  by_cases hc : len ≥ 64 - M.length % 64
  · rw [if_pos hc]
    -- the staging buffer, once filled, is block number `|M| / 64` of the whole message
    have hbuf : (memcpy ctx.buffer (M.length % 64) X (64 - M.length % 64)).take 64 =
        (block64 (M ++ X.take len) (M.length / 64)).take 64 := by
      unfold memcpy block64
      rw [hb, List.take_take]
      have e1 : 64 * (M.length / 64) = M.length - M.length % 64 := by omega
      have e2 : (List.drop (M.length - M.length % 64) M).length = M.length % 64 := by
        simp only [List.length_drop]; omega
      have e3 : (List.take (64 - M.length % 64) X).length = 64 - M.length % 64 := by
        simp only [List.length_take]; omega
      rw [e1, List.drop_append_of_le_length (by omega), List.append_assoc,
        List.take_append_eq_append_take, @List.take_append_eq_append_take _ (List.drop _ M),
        @List.take_append_eq_append_take _ (List.take _ X), e2, e3, List.take_take,
        List.take_take]
      simp only [Nat.min_self]
      have e4 : 64 - M.length % 64 - (64 - M.length % 64) = 0 := by omega
      have e5 : min (64 - M.length % 64) len = 64 - M.length % 64 := by omega
      rw [e4, e5]
      simp
    have hblk : ∀ i, i + 64 ≤ len →
        (X.drop i).take 64 = ((M ++ X.take len).drop (M.length + i)).take 64 := by
      intro i hi
      rw [List.drop_append, List.drop_take, List.take_take]
      congr 1
      omega
    have hst : md5_transform ctx.state (memcpy ctx.buffer (M.length % 64) X (64 - M.length % 64))
        = (blocksUpTo (M ++ X.take len) (M.length / 64 + 1)).foldl md5_transform
            md5_initial_state := by
      rw [blocksUpTo_succ, List.foldl_append, blocksUpTo_append _ _ _ (by omega)]
      simp only [List.foldl_cons, List.foldl_nil]
      rw [hs]
      exact md5_transform_congr _ hbuf
    obtain ⟨l1, l2, l3, l4⟩ := md5_update_loop_spec (M ++ X.take len) X M.length len hwrap hblk
      len _ (64 - M.length % 64) (M.length / 64 + 1) (by omega) hc (by omega) hst
    generalize md5_update_loop len _ X (64 - M.length % 64) len = r at l1 l2 l3 l4
    have hr32 : (len + 2 ^ 32 - r.2) % 2 ^ 32 = len - r.2 := by
      norm_num at hwrap ⊢
      omega
    have hq : (M.length + r.2) / 64 = (M.length + len) / 64 := by omega
    have hrem : (M.length + len) % 64 = len - r.2 := by omega
    refine ⟨?_, ?_⟩
    · show r.1 = foldBlocks (M ++ X.take len)
      rw [l4, hq]
      simp only [foldBlocks, blocks64, hPlen]
    · show (memcpy _ 0 (X.drop r.2) ((len + 2 ^ 32 - r.2) % 2 ^ 32)).take _ = _
      rw [hr32, hPlen, hrem]
      unfold memcpy
      have e1 : ((X.drop r.2).take (len - r.2)).length = len - r.2 := by
        simp only [List.length_take, List.length_drop]; omega
      rw [List.take_zero, List.nil_append, List.take_append_of_le_length (by omega),
        List.take_of_length_le (by omega)]
      have e2 : M.length + len - (len - r.2) = M.length + r.2 := by omega
      rw [e2, List.drop_append, List.drop_take]
  · rw [if_neg hc]
    have hq : (M.length + len) / 64 = M.length / 64 := by omega
    have hrem : (M.length + len) % 64 = M.length % 64 + len := by omega
    refine ⟨?_, ?_⟩
    · show ctx.state = foldBlocks (M ++ X.take len)
      rw [hs]
      simp only [foldBlocks, blocks64, hPlen, hq]
      rw [blocksUpTo_append _ _ _ (by omega)]
    · show (memcpy ctx.buffer (M.length % 64) X len).take _ = _
      rw [hPlen, hrem]
      unfold memcpy
      have e1 : (ctx.buffer.take (M.length % 64)).length = M.length % 64 := by
        rw [hb, List.length_drop]; omega
      have e2 : (ctx.buffer.take (M.length % 64) ++ X.take len).length = M.length % 64 + len := by
        rw [List.length_append, e1, List.length_take]; omega
      rw [List.take_append_of_le_length (by omega), List.take_of_length_le (by omega), hb]
      have e3 : M.length + len - (M.length % 64 + len) = M.length - M.length % 64 := by omega
      rw [e3, List.drop_append_of_le_length (by omega)]

/-- `md5_update` keeps the invariant: after feeding `len` bytes of `X` to a context
that stands for `M`, the context stands for `M ++ X.take len`. -/
theorem md5_update_inv (ctx : MD5_CTX) (M X : List Nat) (len : Nat) (h : UpdateInv ctx M)
    (hlen : len ≤ X.length) (hwrap : M.length % 64 + len < 2 ^ 32) :
    UpdateInv (md5_update ctx X len) (M ++ X.take len) := by
  obtain ⟨hs, hb, hc0, hc1⟩ := h
  have hidx := index_eq ctx.count0 M.length hc0
  obtain ⟨hn0, hn1⟩ := count_update M.length len ctx.count0 ctx.count1 hc0 hc1
  obtain ⟨h1, h2⟩ := md5_update_state_buffer ctx M X len hs hb hidx hlen hwrap
  have hPlen : (M ++ X.take len).length = M.length + len := by
    simp [List.length_append, List.length_take, Nat.min_eq_left hlen]
  refine ⟨h1, h2, ?_, ?_⟩
  · rw [md5_update_count0, hPlen]; exact hn0
  · rw [md5_update_count1, hPlen]; exact hn1

/-- The zero padding is the shortest that brings the length to 56 modulo 64. -/
theorem zeroPadLen_spec (n : Nat) :
    (n + 1 + zeroPadLen n) % 64 = 56 ∧ ∀ z, (n + 1 + z) % 64 = 56 → zeroPadLen n ≤ z := by
  unfold zeroPadLen
  constructor
  · omega
  · intro z hz; omega

theorem md5_init_inv (ctx : MD5_CTX) : UpdateInv (md5_init ctx) [] := by
  refine ⟨?_, ?_, ?_, ?_⟩ <;> rfl

/-- Feeding the chunks one after the other keeps the invariant for their concatenation. -/
theorem md5_update_chunks_inv (chunks : List (List Nat)) :
    ∀ (ctx : MD5_CTX) (M : List Nat), UpdateInv ctx M →
      (M ++ chunks.flatten).length < 2 ^ 32 →
      UpdateInv (chunks.foldl (fun c X => md5_update c X X.length) ctx) (M ++ chunks.flatten) := by
  induction chunks with
  | nil => intro ctx M h _; simpa using h
  | cons X rest ih =>
    intro ctx M h hlt
    simp only [List.flatten_cons, List.foldl_cons, ← List.append_assoc] at hlt ⊢
    apply ih _ _ _ hlt
    have hx := md5_update_inv ctx M X X.length h (Nat.le_refl _) (by
      simp only [List.length_append] at hlt
      have := Nat.mod_le M.length 64
      omega)
    rwa [List.take_length] at hx

theorem and_255 (x : Nat) : x &&& 0xff = x % 256 := Nat.and_pow_two_sub_one_eq_mod x 8

/-- The eight length bytes `md5_final` reads from the two counters. -/
theorem bits_eq (ctx : MD5_CTX) (p : Nat) (hc0 : ctx.count0 = 8 * p % 2 ^ 32)
    (hc1 : ctx.count1 = 8 * p / 2 ^ 32 % 2 ^ 32) :
    ((List.range 8).map fun i => (ctx.count (i >>> 2) >>> ((i % 4) * 8)) &&& 0xff) =
      leBytes 8 (8 * p % 2 ^ 64) := by
  simp only [leBytes, List.range_succ, List.range_zero, List.nil_append, List.cons_append,
    List.map_cons, List.map_nil, and_255, Nat.shiftRight_eq_div_pow, MD5_CTX.count, hc0, hc1]
  norm_num
  clear hc0 hc1
  repeat' apply And.intro
  all_goals omega

theorem padding_take (padLen : Nat) (h1 : 1 ≤ padLen) (h2 : padLen ≤ 64) :
    padding.take padLen = 0x80 :: List.replicate (padLen - 1) 0 := by
  obtain ⟨n, rfl⟩ : ∃ n, padLen = n + 1 := ⟨padLen - 1, by omega⟩
  simp only [padding, List.take_succ_cons, List.take_replicate, Nat.add_sub_cancel]
  congr 2
  omega

/-- The digest bytes `md5_final` writes are the state words in little-endian order. -/
theorem encode_eq (s : MD5State) :
    ((List.range 16).map fun k =>
        (([s.s0, s.s1, s.s2, s.s3].getD (k / 4) 0) >>> ((k % 4) * 8)) &&& 0xff) =
      leBytes 4 s.s0 ++ leBytes 4 s.s1 ++ leBytes 4 s.s2 ++ leBytes 4 s.s3 := by
  simp [leBytes, List.range_succ, and_255, Nat.shiftRight_eq_div_pow]

/-- `md5_final` on a context that stands for `M` writes the reference digest of `M`. -/
theorem md5_final_eq_reference (ctx : MD5_CTX) (M : List Nat) (h : UpdateInv ctx M) :
    (md5_final ctx).1 = md5_reference M := by
  have hidx := index_eq ctx.count0 M.length h.2.2.1
  have hbits := bits_eq ctx M.length h.2.2.1 h.2.2.2
  have hk : M.length % 64 < 64 := Nat.mod_lt _ (by norm_num)
  unfold md5_final
  simp only [hidx, hbits]
  generalize hpl : (if M.length % 64 < 56 then 56 - M.length % 64 else 120 - M.length % 64)
    = padLen
  have hp1 : 1 ≤ padLen := by subst hpl; split <;> omega
  have hp2 : padLen ≤ 64 := by subst hpl; split <;> omega
  have hz : padLen - 1 = zeroPadLen M.length := by
    subst hpl; unfold zeroPadLen; split <;> omega
  have i1 := md5_update_inv ctx M padding padLen h (by simpa [padding] using hp2)
    (by norm_num; omega)
  have i2 := md5_update_inv _ _ (leBytes 8 (8 * M.length % 2 ^ 64)) 8 i1
    (by simp [leBytes]) (by
      have := Nat.mod_lt (M ++ List.take padLen padding).length (show 0 < 64 by norm_num)
      norm_num
      omega)
  have hpad : M ++ List.take padLen padding ++ List.take 8 (leBytes 8 (8 * M.length % 2 ^ 64))
      = md5_padded M := by
    rw [padding_take padLen hp1 hp2, hz, List.take_of_length_le (by simp [leBytes])]
    simp [md5_padded]
  rw [hpad] at i2
  rw [encode_eq, i2.1]
  rfl

/-- The digest of any chunking of a message below `2 ^ 32` bytes is its reference digest. -/
theorem md5_chunks_eq_reference (ctx : MD5_CTX) (chunks : List (List Nat))
    (h : chunks.flatten.length < 2 ^ 32) :
    (md5_final (chunks.foldl (fun c X => md5_update c X X.length) (md5_init ctx))).1 =
      md5_reference chunks.flatten := by
  apply md5_final_eq_reference
  have := md5_update_chunks_inv chunks (md5_init ctx) [] (md5_init_inv ctx) (by simpa using h)
  simpa using this

set_option maxRecDepth 100000 in
theorem md5_reference_empty :
    md5_reference [] = [0xd4, 0x1d, 0x8c, 0xd9, 0x8f, 0x00, 0xb2, 0x04, 0xe9, 0x80, 0x09, 0x98,
      0xec, 0xf8, 0x42, 0x7e] := by
  decide

set_option maxRecDepth 100000 in
theorem md5_reference_abc :
    md5_reference [0x61, 0x62, 0x63] = [0x90, 0x01, 0x50, 0x98, 0x3c, 0xd2, 0x4f, 0xb0, 0xd6, 0x96,
      0x3f, 0x7d, 0x28, 0xe1, 0x7f, 0x72] := by
  decide

/-- C1. `md5_init` followed at once by `md5_final` writes the digest
`D4 1D 8C D9 8F 00 B2 04 E9 80 09 98 EC F8 42 7E` of the empty message, whatever the
context memory held before. -/
theorem md5_empty_digest (ctx : MD5_CTX) :
    (md5_final (md5_init ctx)).1 = [0xd4, 0x1d, 0x8c, 0xd9, 0x8f, 0x00, 0xb2, 0x04, 0xe9, 0x80,
      0x09, 0x98, 0xec, 0xf8, 0x42, 0x7e] := by
  rw [md5_final_eq_reference _ [] (md5_init_inv ctx)]
  exact md5_reference_empty

/-- C2. `md5_init`, one `md5_update` with the three bytes `61 62 63` and `md5_final`
write the digest `90 01 50 98 3C D2 4F B0 D6 96 3F 7D 28 E1 7F 72`. -/
theorem md5_abc_digest (ctx : MD5_CTX) :
    (md5_final (md5_update (md5_init ctx) [0x61, 0x62, 0x63] 3)).1 =
      [0x90, 0x01, 0x50, 0x98, 0x3c, 0xd2, 0x4f, 0xb0, 0xd6, 0x96, 0x3f, 0x7d, 0x28, 0xe1,
        0x7f, 0x72] := by
  have h := md5_chunks_eq_reference ctx [[0x61, 0x62, 0x63]] (by decide)
  rw [← md5_reference_abc]
  exact h

/-- C3. Streaming invariance: for chunks whose concatenation `M` is shorter than `2 ^ 32`
bytes (so that `M` and every chunk fit the 32-bit length parameter), one `md5_update` per
chunk gives the same digest as a single `md5_update` with all of `M`; the two runs may
start from different context memory. -/
theorem md5_streaming_invariance (ctx ctx1 : MD5_CTX) (chunks : List (List Nat))
    (h : chunks.flatten.length < 2 ^ 32) :
    (md5_final (chunks.foldl (fun c X => md5_update c X X.length) (md5_init ctx))).1 =
      (md5_final (md5_update (md5_init ctx1) chunks.flatten chunks.flatten.length)).1 := by
  rw [md5_chunks_eq_reference ctx chunks h]
  have h1 := md5_chunks_eq_reference ctx1 [chunks.flatten] (by simpa using h)
  simp only [List.foldl_cons, List.foldl_nil, List.flatten_cons, List.flatten_nil,
    List.append_nil] at h1
  exact h1.symm

theorem md5_streaming_invariance_witness :
    [[1, 2], [], [3]].flatten.length < 2 ^ 32 ∧
    (md5_final ([[1, 2], [], [3]].foldl (fun c X => md5_update c X X.length)
        (md5_init ctxZero))).1 =
      (md5_final (md5_update (md5_init ctxZero) [[1, 2], [], [3]].flatten
        [[1, 2], [], [3]].flatten.length)).1 :=
  ⟨by decide, md5_streaming_invariance ctxZero ctxZero [[1, 2], [], [3]] (by decide)⟩

/-- C4. For every message `M` shorter than `2 ^ 32` bytes, `md5_init`, `md5_update` with
`M` and `md5_final` write the reference digest: the fold of `md5_transform` from the
initial state over the 64-byte blocks of the padded message, each final word as four
little-endian bytes. -/
theorem md5_digest_eq_reference (ctx : MD5_CTX) (M : List Nat) (h : M.length < 2 ^ 32) :
    (md5_final (md5_update (md5_init ctx) M M.length)).1 = md5_reference M := by
  have h1 := md5_chunks_eq_reference ctx [M] (by simpa using h)
  simpa using h1

theorem md5_digest_eq_reference_witness :
    [0x61, 0x62, 0x63].length < 2 ^ 32 ∧
    (md5_final (md5_update (md5_init ctxZero) [0x61, 0x62, 0x63] [0x61, 0x62, 0x63].length)).1 =
      md5_reference [0x61, 0x62, 0x63] :=
  ⟨by decide, md5_digest_eq_reference ctxZero [0x61, 0x62, 0x63] (by decide)⟩

/-! ## The bounded queue -/

theorem tmod_wrap (x c : Int) (h0 : 0 ≤ x) (hx : x ≤ c) :
    x.tmod c = if x = c then 0 else x := by
  split
  · next h => rw [h, Int.tmod_self]
  · next h => exact Int.tmod_eq_of_lt h0 (by omega)

theorem emod_wrap (x c : Int) (h0 : 0 ≤ x) (hx : x < 2 * c) :
    x % c = if x < c then x else x - c := by
  split
  · next h => exact Int.emod_eq_of_lt h0 h
  · next h =>
    have e : x = (x - c) + c := by omega
    rw [e, Int.add_emod_self, Int.emod_eq_of_lt (by omega) (by omega)]
    omega

theorem queue_init_inv (C : Int) (mem : Int → FileTask) (hC : 0 ≤ C) :
    QInv (queue_init C mem) := by
  unfold QInv queue_init
  dsimp only
  omega

/-- What a completed `queue_enqueue` does to the fields. -/
theorem queue_enqueue_some (q q1 : TaskQueue) (path : List Nat)
    (h : queue_enqueue q path = some q1) :
    q.size ≠ q.capacity ∧ q1.capacity = q.capacity ∧ q1.size = q.size + 1 ∧
    q1.front = q.front ∧ q1.rear = (q.rear + 1).tmod q.capacity ∧
    q1.tasks = Function.update q.tasks q1.rear (storedTask path) := by
  unfold queue_enqueue at h
  split at h
  · cases h
  · next hne =>
    simp only [Option.some.injEq] at h
    subst h
    exact ⟨hne, rfl, rfl, rfl, rfl, rfl⟩

/-- What a completed `queue_dequeue` that returns 1 does to the fields. -/
theorem queue_dequeue_one (e : Int) (q q1 : TaskQueue) (task t : FileTask)
    (h : queue_dequeue e q task = some (1, q1, t)) :
    q.size ≠ 0 ∧ q1.capacity = q.capacity ∧ q1.size = q.size - 1 ∧
    q1.front = (q.front + 1).tmod q.capacity ∧ q1.rear = q.rear ∧ q1.tasks = q.tasks ∧
    t = q.tasks q.front := by
  unfold queue_dequeue at h
  split at h
  · cases h
  · split at h
    · simp at h
    · next hne =>
      simp only [Option.some.injEq, Prod.mk.injEq, true_and] at h
      obtain ⟨h1, h2⟩ := h
      subst h1 h2
      exact ⟨hne, rfl, rfl, rfl, rfl, rfl, rfl⟩

/-- What a completed `queue_dequeue` that does not return 1 does: nothing. -/
theorem queue_dequeue_zero (e r : Int) (q q1 : TaskQueue) (task t : FileTask)
    (h : queue_dequeue e q task = some (r, q1, t)) (hr : r ≠ 1) :
    q.size = 0 ∧ e ≠ 0 ∧ r = 0 ∧ q1 = q ∧ t = task := by
  unfold queue_dequeue at h
  split at h
  · cases h
  · next hw =>
    split at h
    · next hz =>
      simp only [Option.some.injEq, Prod.mk.injEq] at h
      obtain ⟨h0, h1, h2⟩ := h
      refine ⟨hz, ?_, h0.symm, h1.symm, h2.symm⟩
      intro he
      exact hw ⟨hz, he⟩
    · simp only [Option.some.injEq, Prod.mk.injEq] at h
      exact absurd h.1.symm hr

theorem queue_enqueue_inv (q q1 : TaskQueue) (path : List Nat) (hq : QInv q)
    (h : queue_enqueue q path = some q1) : QInv q1 := by
  obtain ⟨hne, hcap, hsize, hfront, hrear, _⟩ := queue_enqueue_some q q1 path h
  obtain ⟨i1, i2, i3, i4, i5, i6, i7, i8⟩ := hq
  have hpos : 0 < q.capacity := by omega
  rw [tmod_wrap _ _ (by omega) (by have := i6 hpos; omega)] at hrear
  simp only [QInv, hcap, hsize, hfront]
  have := i4 hpos
  have := i6 hpos
  split at hrear <;> omega

theorem queue_dequeue_inv (e r : Int) (q q1 : TaskQueue) (task t : FileTask) (hq : QInv q)
    (h : queue_dequeue e q task = some (r, q1, t)) : QInv q1 := by
  by_cases hr : r = 1
  · subst hr
    obtain ⟨hne, hcap, hsize, hfront, hrear, _⟩ := queue_dequeue_one e q q1 task t h
    obtain ⟨i1, i2, i3, i4, i5, i6, i7, i8⟩ := hq
    have hpos : 0 < q.capacity := by omega
    rw [tmod_wrap _ _ (by omega) (by have := i4 hpos; omega)] at hfront
    simp only [QInv, hcap, hsize, hrear]
    have := i4 hpos
    have := i6 hpos
    split at hfront <;> omega
  · obtain ⟨_, _, _, h1, _⟩ := queue_dequeue_zero e r q q1 task t h hr
    rw [h1]; exact hq

theorem contents_length (q : TaskQueue) : q.contents.length = q.size.toNat := by
  simp [TaskQueue.contents]

theorem contents_eq_nil (q : TaskQueue) (h : q.size = 0) : q.contents = [] := by
  simp [TaskQueue.contents, h]

/-- A completed `queue_enqueue` appends the stored task at the rear of the contents. -/
theorem queue_enqueue_contents (q q1 : TaskQueue) (path : List Nat) (hq : QInv q)
    (h : queue_enqueue q path = some q1) :
    q1.contents = q.contents ++ [storedTask path] := by
  obtain ⟨hne, hcap, hsize, hfront, hrear, htasks⟩ := queue_enqueue_some q q1 path h
  obtain ⟨i1, i2, i3, i4, i5, i6, i7, i8⟩ := hq
  have hpos : 0 < q.capacity := by omega
  have h4 := i4 hpos
  have h6 := i6 hpos
  rw [tmod_wrap _ _ (by omega) (by omega)] at hrear
  have hn : q1.size.toNat = q.size.toNat + 1 := by omega
  have hrear2 : q1.rear = (q.front + (q.size.toNat : Int)) % q.capacity := by
    rw [emod_wrap _ _ (by omega) (by omega)]
    split at hrear <;> split <;> omega
  unfold TaskQueue.contents
  rw [hn, List.range_succ, List.map_append, hcap, hfront]
  congr 1
  · apply List.map_congr_left
    intro k hk
    have hk2 := List.mem_range.1 hk
    rw [htasks, Function.update_noteq]
    rw [hrear2, emod_wrap _ _ (by omega) (by omega), emod_wrap _ _ (by omega) (by omega)]
    split <;> split <;> omega
  · simp only [List.map_cons, List.map_nil, List.cons.injEq, and_true]
    rw [htasks, ← hrear2, Function.update_same]

/-- A `queue_dequeue` that returns 1 removes the task at the front of the contents
and delivers it. -/
theorem queue_dequeue_contents (e : Int) (q q1 : TaskQueue) (task t : FileTask) (hq : QInv q)
    (h : queue_dequeue e q task = some (1, q1, t)) :
    q.contents = t :: q1.contents := by
  obtain ⟨hne, hcap, hsize, hfront, hrear, htasks, ht⟩ := queue_dequeue_one e q q1 task t h
  obtain ⟨i1, i2, i3, i4, i5, i6, i7, i8⟩ := hq
  have hpos : 0 < q.capacity := by omega
  have h4 := i4 hpos
  have hn : q.size.toNat = q1.size.toNat + 1 := by omega
  have hf : q1.front = (q.front + 1) % q.capacity := by
    rw [hfront, Int.tmod_eq_emod (by omega) (by omega)]
  unfold TaskQueue.contents
  rw [hn, List.range_succ_eq_map, List.map_cons, List.map_map, htasks, hcap, hf, ht]
  congr 1
  · simp only [Nat.cast_zero, Int.add_zero]
    rw [Int.emod_eq_of_lt i3 h4]
  · apply List.map_congr_left
    intro k _
    simp only [Function.comp, Nat.succ_eq_add_one, Nat.cast_add, Nat.cast_one, Int.emod_add_emod]
    congr 2
    omega
/-- One completed operation keeps the ring buffer well formed and the history in step
with its contents. -/
theorem step_inv (s s1 : QRun) (op : QOp) (h : s.step op = some s1) (hq : QInv s.q)
    (hf : s.delivered ++ s.q.contents = s.enqueued) :
    QInv s1.q ∧ s1.delivered ++ s1.q.contents = s1.enqueued ∧ s1.q.capacity = s.q.capacity := by
  cases op with
  | enqueue path =>
    simp only [QRun.step] at h
    split at h
    · cases h
    · next q1 hq1 =>
      simp only [Option.some.injEq] at h
      subst h
      refine ⟨queue_enqueue_inv _ _ _ hq hq1, ?_, (queue_enqueue_some _ _ _ hq1).2.1⟩
      simp only [queue_enqueue_contents _ _ _ hq hq1, ← List.append_assoc, hf]
  | dequeue =>
    simp only [QRun.step] at h
    split at h
    · cases h
    · next r q1 t hq1 =>
      have hinv := queue_dequeue_inv _ _ _ _ _ _ hq hq1
      split at h
      · next hr =>
        subst hr
        simp only [Option.some.injEq] at h
        subst h
        refine ⟨hinv, ?_, (queue_dequeue_one _ _ _ _ _ hq1).2.1⟩
        simp only [← hf, queue_dequeue_contents _ _ _ _ _ hq hq1, List.append_assoc,
          List.singleton_append]
      · next hr =>
        simp only [Option.some.injEq] at h
        subst h
        obtain ⟨_, _, _, h1, _⟩ := queue_dequeue_zero _ _ _ _ _ _ hq1 hr
        subst h1
        exact ⟨hq, hf, rfl⟩
  | shutdown =>
    simp only [QRun.step, Option.some.injEq] at h
    subst h
    exact ⟨hq, hf, rfl⟩

theorem run_inv (ops : List QOp) :
    ∀ (s0 s : QRun), s0.run ops = some s → QInv s0.q →
      s0.delivered ++ s0.q.contents = s0.enqueued →
      QInv s.q ∧ s.delivered ++ s.q.contents = s.enqueued ∧ s.q.capacity = s0.q.capacity := by
  induction ops with
  | nil =>
    intro s0 s h hq hf
    simp only [QRun.run, Option.some.injEq] at h
    subst h
    exact ⟨hq, hf, rfl⟩
  | cons op ops ih =>
    intro s0 s h hq hf
    simp only [QRun.run] at h
    split at h
    · cases h
    · next s1 hs1 =>
      obtain ⟨a, b, c⟩ := step_inv s0 s1 op hs1 hq hf
      obtain ⟨a1, b1, c1⟩ := ih s1 s h a b
      exact ⟨a1, b1, c1.trans c⟩

/-- Every state reached from `queue_init(C)` with `0 ≤ C` is well formed and its history
is in step with its contents. -/
theorem reachable_inv (C : Int) (mem : Int → FileTask) (ops : List QOp) (s : QRun)
    (hC : 0 ≤ C) (h : (QRun.start C mem).run ops = some s) :
    QInv s.q ∧ s.delivered ++ s.q.contents = s.enqueued ∧ s.q.capacity = C :=
  run_inv ops (QRun.start C mem) s h (queue_init_inv C mem hC)
    (by simp [QRun.start, contents_eq_nil, queue_init])

/-- Enqueues that fit into the free space all complete and append their tasks in order. -/
theorem enqueueAll_spec (ps : List (List Nat)) :
    ∀ (q : TaskQueue), QInv q → q.size + (ps.length : Int) ≤ q.capacity →
      ∃ q1, enqueueAll q ps = some q1 ∧ QInv q1 ∧ q1.size = q.size + (ps.length : Int) ∧
        q1.capacity = q.capacity ∧ q1.contents = q.contents ++ ps.map storedTask := by
  induction ps with
  | nil => intro q hq _; exact ⟨q, rfl, hq, by simp, rfl, by simp⟩
  | cons p ps ih =>
    intro q hq hfit
    simp only [List.length_cons, Nat.cast_add, Nat.cast_one] at hfit
    have hne : q.size ≠ q.capacity := by omega
    have hsome : ∃ q0, queue_enqueue q p = some q0 := by
      unfold queue_enqueue
      rw [if_neg hne]
      exact ⟨_, rfl⟩
    obtain ⟨q0, hq0⟩ := hsome
    obtain ⟨_, hcap, hsize, _⟩ := queue_enqueue_some q q0 p hq0
    obtain ⟨q1, e1, e2, e3, e4, e5⟩ := ih q0 (queue_enqueue_inv q q0 p hq hq0) (by omega)
    refine ⟨q1, ?_, e2, ?_, e4.trans hcap, ?_⟩
    · simp only [enqueueAll, hq0, e1]
    · simp only [List.length_cons, Nat.cast_add, Nat.cast_one]; omega
    · rw [e5, queue_enqueue_contents q q0 p hq hq0]
      simp

/-- With the shutdown flag set, `queue_dequeue` on an empty queue returns 0 any number
of times and changes nothing. -/
theorem dequeueN_empty (e : Int) (he : e ≠ 0) (q : TaskQueue) (task : FileTask)
    (hz : q.size = 0) (n : Nat) :
    dequeueN e n q task = some (List.replicate n (0, task), q) := by
  induction n with
  | zero => rfl
  | succ n ih =>
    have h0 : queue_dequeue e q task = some (0, q, task) := by
      unfold queue_dequeue
      rw [if_neg (by simp [he]), if_pos hz]
    simp only [dequeueN, h0, ih, List.replicate_succ]

/-- With the shutdown flag set, successive dequeues deliver the contents in order, each
task once, and then return 0. -/
theorem dequeueN_drain (e : Int) (he : e ≠ 0) (L : List FileTask) :
    ∀ (q : TaskQueue) (task : FileTask), QInv q → q.contents = L → ∀ n : Nat,
      ∃ q2, dequeueN e (L.length + n) q task =
        some ((L.map fun t => ((1 : Int), t)) ++ List.replicate n (0, L.getLastD task), q2) := by
  induction L with
  | nil =>
    intro q task hq hc n
    have hz : q.size = 0 := by
      have := contents_length q
      rw [hc] at this
      have := hq.1
      simp only [List.length_nil] at *
      omega
    exact ⟨q, by simpa using dequeueN_empty e he q task hz n⟩
  | cons t L ih =>
    intro q task hq hc n
    have hne : q.size ≠ 0 := by
      intro hz
      rw [contents_eq_nil q hz] at hc
      cases hc
    have h1 : queue_dequeue e q task =
        some (1, { q with front := (q.front + 1).tmod q.capacity, size := q.size - 1 },
          q.tasks q.front) := by
      unfold queue_dequeue
      rw [if_neg (by simp [hne]), if_neg hne]
    have hcont := queue_dequeue_contents e q _ task _ hq h1
    rw [hc] at hcont
    simp only [List.cons.injEq] at hcont
    obtain ⟨ht, hL⟩ := hcont
    obtain ⟨q2, hq2⟩ := ih _ (q.tasks q.front) (queue_dequeue_inv e 1 q _ task _ hq h1) hL.symm n
    refine ⟨q2, ?_⟩
    have hlen : (t :: L).length + n = (L.length + n) + 1 := by simp; omega
    rw [hlen]
    simp only [dequeueN, h1, hq2, List.map_cons, List.cons_append, List.getLastD_cons, ht]
theorem demo_run : (QRun.start 2 demoMem).run demoOps = some demoState := rfl

/-- C6. Queue bound invariant: in every state reached from `queue_init(C)`, `C > 0`, by
completed enqueue, dequeue and shutdown steps, `0 ≤ size ≤ capacity = C` and
`0 ≤ front < capacity`; the cell a next `queue_enqueue` writes is `tasks[rear]` with the
new `rear` in `0 .. C-1`, and the cell a next `queue_dequeue` reads is `tasks[front]`. -/
theorem queue_bound_invariant (C : Int) (mem : Int → FileTask) (ops : List QOp) (s : QRun)
    (hC : 0 < C) (h : (QRun.start C mem).run ops = some s) :
    s.q.capacity = C ∧ 0 ≤ s.q.size ∧ s.q.size ≤ C ∧ 0 ≤ s.q.front ∧ s.q.front < C ∧
    (∀ path q1, queue_enqueue s.q path = some q1 →
      0 ≤ q1.rear ∧ q1.rear < C ∧
        q1.tasks = Function.update s.q.tasks q1.rear (storedTask path)) ∧
    (∀ e task q1 t, queue_dequeue e s.q task = some (1, q1, t) → t = s.q.tasks s.q.front) := by
  obtain ⟨hq, _, hcap⟩ := reachable_inv C mem ops s (by omega) h
  have hq' := hq
  obtain ⟨i1, i2, i3, i4, i5, i6, i7, i8⟩ := hq'
  refine ⟨hcap, i1, by omega, i3, by have := i4 (by omega); omega, ?_, ?_⟩
  · intro path q1 h1
    obtain ⟨j1, j2, j3, j4, j5, j6, j7, j8⟩ := queue_enqueue_inv _ _ _ hq h1
    obtain ⟨hne, hcap1, _, _, hrear, htasks⟩ := queue_enqueue_some _ _ _ h1
    refine ⟨?_, by have := j6 (by omega); omega, htasks⟩
    rw [tmod_wrap _ _ (by omega) (by have := i6 (by omega); omega)] at hrear
    split at hrear <;> omega
  · intro e task q1 t h1
    exact (queue_dequeue_one e _ _ _ _ h1).2.2.2.2.2.2

theorem queue_bound_invariant_witness :
    (0 : Int) < 2 ∧ (QRun.start 2 demoMem).run demoOps = some demoState ∧
      demoState.q.capacity = 2 ∧ 0 ≤ demoState.q.size ∧ demoState.q.size ≤ 2 ∧
      0 ≤ demoState.q.front ∧ demoState.q.front < 2 :=
  have h := queue_bound_invariant 2 demoMem demoOps demoState (by decide) demo_run
  ⟨by decide, demo_run, h.1, h.2.1, h.2.2.1, h.2.2.2.1, h.2.2.2.2.1⟩

/-- C7. FIFO, no drop, no reorder: in every state reached from `queue_init(C)`, `0 ≤ C`, the
tasks delivered so far followed by the tasks held (from `front` on) are exactly the tasks
enqueued so far, in enqueue order; and the ring buffer simulates a list queue: a completed
enqueue appends at the rear of the contents, a dequeue returning 1 removes and delivers
their head, a dequeue returning 0 leaves them alone. -/
theorem queue_fifo (C : Int) (mem : Int → FileTask) (ops : List QOp) (s : QRun)
    (hC : 0 ≤ C) (h : (QRun.start C mem).run ops = some s) :
    s.delivered ++ s.q.contents = s.enqueued ∧ s.delivered <+: s.enqueued ∧
    (∀ path q1, queue_enqueue s.q path = some q1 →
      q1.contents = s.q.contents ++ [storedTask path]) ∧
    (∀ e task q1 t, queue_dequeue e s.q task = some (1, q1, t) →
      s.q.contents = t :: q1.contents) ∧
    (∀ e task r q1 t, queue_dequeue e s.q task = some (r, q1, t) → r ≠ 1 →
      q1.contents = s.q.contents ∧ t = task) := by
  obtain ⟨hq, hf, _⟩ := reachable_inv C mem ops s hC h
  refine ⟨hf, ⟨s.q.contents, hf⟩, ?_, ?_, ?_⟩
  · intro path q1 h1
    exact queue_enqueue_contents _ _ _ hq h1
  · intro e task q1 t h1
    exact queue_dequeue_contents e _ _ _ _ hq h1
  · intro e task r q1 t h1 hr
    obtain ⟨_, _, _, h2, h3⟩ := queue_dequeue_zero e r _ _ _ _ h1 hr
    rw [h2]
    exact ⟨rfl, h3⟩

theorem queue_fifo_witness :
    (0 : Int) ≤ 2 ∧ (QRun.start 2 demoMem).run demoOps = some demoState ∧
      demoState.delivered ++ demoState.q.contents = demoState.enqueued :=
  ⟨by decide, demo_run, (queue_fifo 2 demoMem demoOps demoState (by decide) demo_run).1⟩

/-- C8. Lossless shutdown: onto an empty queue reached from `queue_init(C)`, the enqueues
of `K ≤ C` paths all complete; with `should_exit = 1` the next `K` calls of
`queue_dequeue` return 1 and deliver the `K` stored tasks in enqueue order, each once,
and each of the `n` calls after them returns 0 without touching the worker's task. -/
theorem queue_lossless_shutdown (C : Int) (mem : Int → FileTask) (ops : List QOp) (s : QRun)
    (hC : 0 ≤ C) (h : (QRun.start C mem).run ops = some s) (hempty : s.q.size = 0)
    (ps : List (List Nat)) (hK : (ps.length : Int) ≤ C) (task : FileTask) (n : Nat) :
    ∃ q1 q2, enqueueAll s.q ps = some q1 ∧
      dequeueN 1 (ps.length + n) q1 task =
        some ((ps.map fun p => ((1 : Int), storedTask p)) ++
          List.replicate n (0, (ps.map storedTask).getLastD task), q2) := by
  obtain ⟨hq, _, hcap⟩ := reachable_inv C mem ops s hC h
  obtain ⟨q1, e1, e2, _, _, e5⟩ := enqueueAll_spec ps s.q hq (by omega)
  rw [contents_eq_nil s.q hempty, List.nil_append] at e5
  obtain ⟨q2, hq2⟩ := dequeueN_drain 1 (by decide) (ps.map storedTask) q1 task e2 e5 n
  refine ⟨q1, q2, e1, ?_⟩
  simpa [List.map_map, Function.comp] using hq2

theorem queue_lossless_shutdown_witness :
    ∃ q1 q2, enqueueAll (QRun.start 2 demoMem).q [[97], [98]] = some q1 ∧
      dequeueN 1 ([[97], [98]].length + 3) q1 default =
        some (([[97], [98]].map fun p => ((1 : Int), storedTask p)) ++
          List.replicate 3 (0, ([[97], [98]].map storedTask).getLastD default), q2) :=
  queue_lossless_shutdown 2 demoMem [] (QRun.start 2 demoMem) (by decide) rfl rfl
    [[97], [98]] (by decide) default 3

/-- C9. Capacity blocking: on a queue from `queue_init(C)`, `C > 0`, with no dequeue in
between, the wait condition `size == capacity` is false before each of the first `C`
enqueues, so all of them complete; after them it is true and a further enqueue waits;
one `queue_dequeue` then returns 1 and leaves `size ≠ capacity`, so that the enqueue
completes. -/
theorem queue_capacity_blocking (C : Int) (mem : Int → FileTask) (hC : 0 < C)
    (ps : List (List Nat)) (hlen : (ps.length : Int) = C) :
    (∀ k, k < ps.length →
      ∃ qk, enqueueAll (queue_init C mem) (ps.take k) = some qk ∧ qk.size ≠ qk.capacity) ∧
    ∃ qC, enqueueAll (queue_init C mem) ps = some qC ∧ qC.size = qC.capacity ∧
      (∀ p, queue_enqueue qC p = none) ∧
      ∀ e task, ∃ q1 t, queue_dequeue e qC task = some (1, q1, t) ∧ q1.size ≠ q1.capacity ∧
        ∀ p, ∃ q2, queue_enqueue q1 p = some q2 := by
  have hinit := queue_init_inv C mem (by omega)
  have hsz : (queue_init C mem).size = 0 := rfl
  have hcp : (queue_init C mem).capacity = C := rfl
  constructor
  · intro k hk
    have hl : (ps.take k).length = k := by simp [List.length_take]; omega
    obtain ⟨qk, e1, _, e3, e4, _⟩ := enqueueAll_spec (ps.take k) _ hinit (by
      rw [hsz, hcp, hl]; omega)
    refine ⟨qk, e1, ?_⟩
    rw [e3, e4, hsz, hcp, hl]
    omega
  · obtain ⟨qC, e1, e2, e3, e4, _⟩ := enqueueAll_spec ps _ hinit (by rw [hsz, hcp]; omega)
    have hfull : qC.size = qC.capacity := by rw [e3, e4, hsz, hcp]; omega
    refine ⟨qC, e1, hfull, ?_, ?_⟩
    · intro p
      unfold queue_enqueue
      rw [if_pos hfull]
    · intro e task
      have hne : qC.size ≠ 0 := by rw [e3, hsz]; omega
      have h1 : queue_dequeue e qC task =
          some (1, { qC with front := (qC.front + 1).tmod qC.capacity, size := qC.size - 1 },
            qC.tasks qC.front) := by
        unfold queue_dequeue
        rw [if_neg (by simp [hne]), if_neg hne]
      have hne1 : qC.size - 1 ≠ qC.capacity := by omega
      refine ⟨_, _, h1, hne1, ?_⟩
      intro p
      unfold queue_enqueue
      rw [if_neg hne1]
      exact ⟨_, rfl⟩

theorem queue_capacity_blocking_witness :
    (0 : Int) < 2 ∧ (([[97], [98]] : List (List Nat)).length : Int) = 2 ∧
    ∃ qC, enqueueAll (queue_init 2 demoMem) [[97], [98]] = some qC ∧ qC.size = qC.capacity ∧
      (∀ p, queue_enqueue qC p = none) ∧
      ∀ e task, ∃ q1 t, queue_dequeue e qC task = some (1, q1, t) ∧ q1.size ≠ q1.capacity ∧
        ∀ p, ∃ q2, queue_enqueue q1 p = some q2 :=
  ⟨by decide, by decide,
    (queue_capacity_blocking 2 demoMem (by decide) [[97], [98]] (by decide)).2⟩

/-- C10. `queue_dequeue` waits exactly when `size == 0` and the shutdown flag is clear; when
it returns, it returns 0 exactly when `size == 0`, and then the flag is set, the queue
(`tasks`, `front`, `rear`, `size`) and the output task are unchanged, so that any number of
further calls return 0 as well; whenever `size` is not 0 it returns 1 with the task at
`front`, whatever the flag. -/
theorem queue_dequeue_end_of_work (e : Int) (q : TaskQueue) (task : FileTask) :
    (queue_dequeue e q task = none ↔ q.size = 0 ∧ e = 0) ∧
    (∀ r q1 t, queue_dequeue e q task = some (r, q1, t) →
      (r = 0 ↔ q.size = 0) ∧ (r = 0 ∨ r = 1) ∧
      (r = 0 → e ≠ 0 ∧ q1 = q ∧ t = task ∧
        ∀ n, dequeueN e n q1 t = some (List.replicate n (0, task), q))) ∧
    (q.size ≠ 0 → queue_dequeue e q task =
      some (1, { q with front := (q.front + 1).tmod q.capacity, size := q.size - 1 },
        q.tasks q.front)) := by
  refine ⟨?_, ?_, ?_⟩
  · unfold queue_dequeue
    constructor
    · intro h
      split at h
      · next hw => exact hw
      · split at h <;> cases h
    · intro hw
      rw [if_pos hw]
  · intro r q1 t h
    by_cases hr : r = 1
    · subst hr
      have hne := (queue_dequeue_one e q q1 task t h).1
      refine ⟨⟨fun h0 => absurd h0 (by decide), fun hz => absurd hz hne⟩, Or.inr rfl, ?_⟩
      intro h0
      exact absurd h0 (by decide)
    · obtain ⟨hz, he, hr0, hq1, ht⟩ := queue_dequeue_zero e r q q1 task t h hr
      subst hr0 hq1 ht
      exact ⟨⟨fun _ => hz, fun _ => rfl⟩, Or.inl rfl,
        fun _ => ⟨he, rfl, rfl, dequeueN_empty e he q1 t hz⟩⟩
  · intro hne
    unfold queue_dequeue
    rw [if_neg (by simp [hne]), if_neg hne]

/-! ## Shutdown signal -/

theorem step_keeps_flag (s s1 : QRun) (op : QOp) (h : s.step op = some s1)
    (h1 : s.should_exit = 1) : s1.should_exit = 1 := by
  cases op with
  | enqueue path =>
    simp only [QRun.step] at h
    split at h
    · cases h
    · simp only [Option.some.injEq] at h
      subst h
      exact h1
  | dequeue =>
    simp only [QRun.step] at h
    split at h
    · cases h
    · split at h <;>
      · simp only [Option.some.injEq] at h
        subst h
        exact h1
  | shutdown =>
    simp only [QRun.step, Option.some.injEq] at h
    subst h
    rfl

theorem run_keeps_flag (ops : List QOp) :
    ∀ (s s1 : QRun), s.run ops = some s1 → s.should_exit = 1 → s1.should_exit = 1 := by
  induction ops with
  | nil =>
    intro s s1 h h1
    simp only [QRun.run, Option.some.injEq] at h
    subst h
    exact h1
  | cons op ops ih =>
    intro s s1 h h1
    simp only [QRun.run] at h
    split at h
    · cases h
    · next s2 hs2 => exact ih s2 s1 h (step_keeps_flag s s2 op hs2 h1)

/-- C11. The shutdown signal `should_exit = 1` changes the flag and nothing else: the
queue (`tasks`, `front`, `rear`, `size`, `capacity`) and the history stay as they are, so
the tasks held at the signal are all delivered, in order, by the dequeues that follow,
before any of them returns 0; and no later operation on the queue takes the flag back
to 0. -/
theorem shutdown_changes_only_flag (C : Int) (mem : Int → FileTask) (ops : List QOp)
    (s : QRun) (hC : 0 ≤ C) (h : (QRun.start C mem).run ops = some s) :
    ∃ s1, s.step QOp.shutdown = some s1 ∧ s1.should_exit = 1 ∧ s1.q = s.q ∧
      s1.enqueued = s.enqueued ∧ s1.delivered = s.delivered ∧
      (∀ (task : FileTask) (n : Nat), ∃ q2,
        dequeueN s1.should_exit (s.q.contents.length + n) s1.q task =
          some ((s.q.contents.map fun t => ((1 : Int), t)) ++
            List.replicate n (0, s.q.contents.getLastD task), q2)) ∧
      (∀ ops2 s2, s1.run ops2 = some s2 → s2.should_exit = 1) := by
  obtain ⟨hq, _, _⟩ := reachable_inv C mem ops s hC h
  refine ⟨{ s with should_exit := 1 }, rfl, rfl, rfl, rfl, rfl, ?_, ?_⟩
  · intro task n
    exact dequeueN_drain 1 (by decide) s.q.contents s.q task hq rfl n
  · intro ops2 s2 h2
    exact run_keeps_flag ops2 _ s2 h2 rfl

theorem demo_held_run : (QRun.start 2 demoMem).run [QOp.enqueue [97]] = some demoHeld := rfl

theorem shutdown_changes_only_flag_witness :
    (0 : Int) ≤ 2 ∧ (QRun.start 2 demoMem).run [QOp.enqueue [97]] = some demoHeld ∧
    ∃ s1, demoHeld.step QOp.shutdown = some s1 ∧ s1.should_exit = 1 ∧ s1.q = demoHeld.q :=
  have ⟨s1, a, b, c, _⟩ :=
    shutdown_changes_only_flag 2 demoMem [QOp.enqueue [97]] demoHeld (by decide) demo_held_run
  ⟨by decide, demo_held_run, s1, a, b, c⟩

/-! ## Padding in `md5_final` -/

/-- The buffer index after `md5_update` is the old index plus `len`, modulo 64. -/
theorem index_after_update (ctx : MD5_CTX) (X : List Nat) (len : Nat) :
    (md5_update ctx X len).count0 / 8 % 64 = (ctx.count0 / 8 % 64 + len) % 64 := by
  rw [md5_update_count0, Nat.shiftLeft_eq]
  norm_num
  omega

/-- The state after the loop is the fold of `md5_transform` over the recorded blocks. -/
theorem md5_update_loop_calls_spec (input : List Nat) (len : Nat) :
    ∀ (fuel : Nat) (s : MD5State) (i : Nat),
      (md5_update_loop fuel s input i len).1 =
        (md5_update_loop_calls fuel input i len).foldl md5_transform s := by
  intro fuel
  induction fuel with
  | zero => intro s i; rfl
  | succ fuel ih =>
    intro s i
    unfold md5_update_loop md5_update_loop_calls
    split
    · simp only [List.foldl_cons]
      exact ih _ _
    · simp only [List.foldl_nil]

/-- The state after `md5_update` is the fold of `md5_transform` over the recorded
blocks: the record holds exactly the calls made. -/
theorem md5_update_calls_spec (ctx : MD5_CTX) (input : List Nat) (len : Nat) :
    (md5_update ctx input len).state =
      (md5_update_calls ctx input len).foldl md5_transform ctx.state := by
  unfold md5_update md5_update_calls
  simp only []
  split
  · simp only [List.foldl_cons]
    exact md5_update_loop_calls_spec _ _ _ _ _
  · rfl

theorem padLen_bounds (ctx : MD5_CTX) :
    1 ≤ md5_final_padLen ctx ∧ md5_final_padLen ctx ≤ 64 ∧
      (ctx.count0 / 8 % 64 + md5_final_padLen ctx) % 64 = 56 := by
  unfold md5_final_padLen
  simp only []
  split <;> omega

theorem md5_final_ctx (ctx : MD5_CTX) :
    (md5_final ctx).2 =
      md5_update (md5_update ctx padding (md5_final_padLen ctx))
        ((List.range 8).map fun i => (ctx.count (i >>> 2) >>> ((i % 4) * 8)) &&& 0xff) 8 := rfl

theorem md5_update_calls_small (ctx : MD5_CTX) (X : List Nat) (len : Nat)
    (h : len < 64 - ctx.count0 / 8 % 64) : md5_update_calls ctx X len = [] := by
  unfold md5_update_calls
  simp only []
  rw [if_neg (by omega)]

theorem md5_update_calls_one (ctx : MD5_CTX) (X : List Nat) (len : Nat)
    (h1 : 64 - ctx.count0 / 8 % 64 ≤ len) (h2 : len ≤ 127 - ctx.count0 / 8 % 64) :
    (md5_update_calls ctx X len).length = 1 := by
  unfold md5_update_calls
  simp only []
  rw [if_pos h1]
  have hpos : ∃ f, len = f + 1 := ⟨len - 1, by omega⟩
  obtain ⟨f, rfl⟩ := hpos
  unfold md5_update_loop_calls
  have h63 : (64 - ctx.count0 / 8 % 64 + 63) % 2 ^ 32 = 64 - ctx.count0 / 8 % 64 + 63 := by
    apply Nat.mod_eq_of_lt
    norm_num
    omega
  rw [h63, if_neg (by omega)]
  rfl

/-- C19. In `md5_final`, for every context, `1 ≤ padLen ≤ 64` and
`(index + padLen) % 64 = 56` for the `padLen` it hands to `md5_update`; the two closing `md5_update` calls call `md5_transform`
once when `index < 56` and twice when `index ≥ 56` (the state afterwards is the fold of
`md5_transform` over exactly these blocks), and they leave the buffer index at 0. -/
theorem md5_final_padding (ctx : MD5_CTX) :
    1 ≤ md5_final_padLen ctx ∧ md5_final_padLen ctx ≤ 64 ∧
    (ctx.count0 / 8 % 64 + md5_final_padLen ctx) % 64 = 56 ∧
    (md5_final_calls ctx).length = (if ctx.count0 / 8 % 64 < 56 then 1 else 2) ∧
    (md5_final ctx).2 = md5_update (md5_update ctx padding (md5_final_padLen ctx))
      ((List.range 8).map fun i => (ctx.count (i >>> 2) >>> ((i % 4) * 8)) &&& 0xff) 8 ∧
    (md5_final ctx).2.state = (md5_final_calls ctx).foldl md5_transform ctx.state ∧
    (md5_final ctx).2.count0 / 8 % 64 = 0 := by
  obtain ⟨p1, p2, p3⟩ := padLen_bounds ctx
  have hi1 := index_after_update ctx padding (md5_final_padLen ctx)
  rw [p3] at hi1
  refine ⟨p1, p2, p3, ?_, rfl, ?_, ?_⟩
  · unfold md5_final_calls
    simp only [List.length_append]
    rw [md5_update_calls_one _ _ 8 (by omega) (by omega)]
    split
    · next hlt =>
      rw [md5_update_calls_small ctx padding _ (by
        unfold md5_final_padLen; simp only []; rw [if_pos hlt]; omega)]
      rfl
    · next hge =>
      rw [md5_update_calls_one ctx padding _ (by
        unfold md5_final_padLen; simp only []; rw [if_neg hge]; omega) (by
        unfold md5_final_padLen; simp only []; rw [if_neg hge]; omega)]
  · rw [md5_final_ctx, md5_update_calls_spec, md5_update_calls_spec]
    unfold md5_final_calls
    simp only [List.foldl_append]
  · rw [md5_final_ctx, index_after_update, hi1]

/-! ## Rendering the digest -/

theorem hexDigit_inj (a b : Nat) (ha : a < 16) (hb : b < 16) (h : hexDigit a = hexDigit b) :
    a = b := by
  unfold hexDigit at h
  split at h <;> split at h <;> omega

theorem sprintf02x_inj (a b : Nat) (ha : a < 256) (hb : b < 256)
    (h : sprintf02x a = sprintf02x b) : a = b := by
  simp only [sprintf02x, List.cons.injEq, and_true] at h
  have h1 := hexDigit_inj _ _ (by omega) (by omega) h.1
  have h2 := hexDigit_inj _ _ (by omega) (by omega) h.2
  omega

/-- Equal renderings come from equal bytes in each of the sixteen cells. -/
theorem hexString_byteAt (d1 d2 : List Nat) (h : hexString d1 = hexString d2) :
    ∀ i, i < 16 → byteAt d1 i = byteAt d2 i := by
  intro i hi
  apply sprintf02x_inj _ _ (byteAt_lt _ _) (byteAt_lt _ _)
  simp only [hexString, sprintf02x, List.range_succ, List.range_zero, List.nil_append,
    List.cons_append, List.map_cons, List.map_nil, List.flatten_cons, List.flatten_nil,
    List.append_nil, List.cons.injEq, and_true] at h
  simp only [sprintf02x, List.cons.injEq, and_true]
  interval_cases i <;> simp only [h, and_self]

theorem hexString_injective (d1 d2 : List Nat) (h1 : d1.length = 16) (h2 : d2.length = 16)
    (b1 : ∀ b ∈ d1, b < 256) (b2 : ∀ b ∈ d2, b < 256) (h : hexString d1 = hexString d2) :
    d1 = d2 := by
  apply List.ext_getElem (by rw [h1, h2])
  intro i hi1 hi2
  have hb := hexString_byteAt d1 d2 h i (by omega)
  simp only [byteAt, List.getD_eq_getElem?_getD, List.getElem?_eq_getElem hi1,
    List.getElem?_eq_getElem hi2, Option.getD_some] at hb
  have := b1 _ (List.getElem_mem hi1)
  have := b2 _ (List.getElem_mem hi2)
  omega

theorem md5_final_digest_shape (ctx : MD5_CTX) :
    (md5_final ctx).1.length = 16 ∧ ∀ b ∈ (md5_final ctx).1, b < 256 := by
  unfold md5_final
  simp only [List.length_map, List.length_range, true_and]
  intro b hb
  simp only [List.mem_map] at hb
  obtain ⟨k, _, rfl⟩ := hb
  rw [and_255]
  omega

/-- With the shutdown flag set, a worker alone on a queue whose tasks all fail to open
prints one sentinel line per task held, in queue order, and then exits. -/
theorem worker_thread_drain (basename : List Nat → List Nat)
    (fopen : List Nat → Option (List (List Nat))) (ctx : MD5_CTX) (e : Int) (he : e ≠ 0)
    (hline : ∀ t : FileTask, fopen (cstr t.path) = none →
      worker_line basename fopen ctx t = sentinelLine basename t)
    (L : List FileTask) :
    ∀ (q : TaskQueue) (task0 : FileTask), QInv q → q.contents = L →
      (∀ t ∈ L, fopen (cstr t.path) = none) →
      ∃ q2, worker_thread basename fopen ctx e (L.length + 1) q task0 =
        (L.map (sentinelLine basename), WorkerEnd.exited, q2) := by
  induction L with
  | nil =>
    intro q task0 hq hc _
    have hz : q.size = 0 := by
      have := contents_length q
      rw [hc] at this
      have := hq.1
      simp only [List.length_nil] at *
      omega
    have h0 : queue_dequeue e q task0 = some (0, q, task0) := by
      unfold queue_dequeue
      rw [if_neg (by simp [he]), if_pos hz]
    exact ⟨q, by simp only [List.length_nil, Nat.zero_add, worker_thread, h0, if_true,
      List.map_nil]⟩
  | cons t L ih =>
    intro q task0 hq hc hall
    have hne : q.size ≠ 0 := by
      intro hz
      rw [contents_eq_nil q hz] at hc
      cases hc
    have h1 : queue_dequeue e q task0 =
        some (1, { q with front := (q.front + 1).tmod q.capacity, size := q.size - 1 },
          q.tasks q.front) := by
      unfold queue_dequeue
      rw [if_neg (by simp [hne]), if_neg hne]
    have hcont := queue_dequeue_contents e q _ task0 _ hq h1
    rw [hc] at hcont
    simp only [List.cons.injEq] at hcont
    obtain ⟨ht, hL⟩ := hcont
    obtain ⟨q2, hq2⟩ := ih _ (q.tasks q.front) (queue_dequeue_inv e 1 q _ task0 _ hq h1)
      hL.symm (fun u hu => hall u (List.mem_cons_of_mem _ hu))
    refine ⟨q2, ?_⟩
    have hopen := hall t (List.mem_cons_self _ _)
    subst ht
    rw [List.length_cons, worker_thread, h1]
    simp only [hq2, hline _ hopen, List.map_cons]
    rw [if_neg (by decide)]

/-- C14. When the file of a path cannot be opened, `calculate_md5` returns the string of
32 characters `'0'`; the worker prints the line `<basename> 000...0` (32 zeros) for that
task, ahead of whatever its loop prints afterwards, and the loop goes on with the next
`queue_dequeue` on the queue the dequeue left. With the shutdown flag set, a worker alone
on a queue whose tasks all fail to open prints one such line per task and then exits. -/
theorem open_failure_sentinel (basename : List Nat → List Nat)
    (fopen : List Nat → Option (List (List Nat))) (ctx : MD5_CTX) (task : FileTask)
    (hopen : fopen (cstr task.path) = none) :
    calculate_md5 fopen ctx task.path = List.replicate 32 48 ∧
    worker_line basename fopen ctx task =
      basename (cstr (strncpy task.path (MAX_PATH - 1) ++ [0])) ++ [32] ++
        List.replicate 32 48 ++ [10] ∧
    (∀ (e : Int) (fuel : Nat) (q q1 : TaskQueue) (task0 : FileTask),
      queue_dequeue e q task0 = some (1, q1, task) →
      worker_thread basename fopen ctx e (fuel + 1) q task0 =
        ((basename (cstr (strncpy task.path (MAX_PATH - 1) ++ [0])) ++ [32] ++
            List.replicate 32 48 ++ [10]) ::
          (worker_thread basename fopen ctx e fuel q1 task).1,
         (worker_thread basename fopen ctx e fuel q1 task).2)) ∧
    (∀ (e : Int) (q : TaskQueue) (task0 : FileTask), e ≠ 0 → QInv q →
      (∀ t ∈ q.contents, fopen (cstr t.path) = none) →
      ∃ q2, worker_thread basename fopen ctx e (q.contents.length + 1) q task0 =
        (q.contents.map fun t =>
          basename (cstr (strncpy t.path (MAX_PATH - 1) ++ [0])) ++ [32] ++
            List.replicate 32 48 ++ [10], WorkerEnd.exited, q2)) := by
  have hcalc : ∀ t : FileTask, fopen (cstr t.path) = none →
      calculate_md5 fopen ctx t.path = List.replicate 32 48 := by
    intro t ht
    unfold calculate_md5
    rw [ht]
  have hline : ∀ t : FileTask, fopen (cstr t.path) = none →
      worker_line basename fopen ctx t = sentinelLine basename t := by
    intro t ht
    unfold worker_line sentinelLine
    simp only [hcalc t ht]
    rfl
  refine ⟨hcalc task hopen, hline task hopen, ?_, ?_⟩
  · intro e fuel q q1 task0 hd
    rw [worker_thread, hd]
    simp only [hline task hopen, sentinelLine]
    rw [if_neg (by decide)]
  · intro e q task0 he hq hall
    exact worker_thread_drain basename fopen ctx e he hline q.contents q task0 hq rfl hall

theorem open_failure_sentinel_witness :
    (fun _ : List Nat => (none : Option (List (List Nat)))) (cstr (storedTask [97]).path) = none ∧
    queue_dequeue 1 demoHeld.q default =
      some (1, { demoHeld.q with front := 1, size := 0 }, storedTask [97]) ∧
    worker_thread id (fun _ => none) ctxZero 1 (1 + 1) demoHeld.q default =
      ((id (cstr (strncpy (storedTask [97]).path (MAX_PATH - 1) ++ [0])) ++ [32] ++
          List.replicate 32 48 ++ [10]) ::
        (worker_thread id (fun _ => none) ctxZero 1 1 { demoHeld.q with front := 1, size := 0 }
          (storedTask [97])).1,
       (worker_thread id (fun _ => none) ctxZero 1 1 { demoHeld.q with front := 1, size := 0 }
          (storedTask [97])).2) :=
  ⟨rfl, rfl,
    (open_failure_sentinel id (fun _ => none) ctxZero (storedTask [97]) rfl).2.2.1 1 1
      demoHeld.q { demoHeld.q with front := 1, size := 0 } default rfl⟩

/-- The run of the witness, evaluated: one sentinel line for the task `a`, then exit. -/
theorem worker_thread_demo :
    (worker_thread id (fun _ => none) ctxZero 1 2 demoHeld.q default).1 =
      [[97, 32] ++ List.replicate 32 48 ++ [10]] ∧
    (worker_thread id (fun _ => none) ctxZero 1 2 demoHeld.q default).2.1 = WorkerEnd.exited := by
  decide

/-- C20. The string `calculate_md5` returns when the file cannot be opened is the rendering
of the all-zero digest, hence the string it returns for a file that can be read and whose
digest is sixteen zero bytes; apart from that the rendering is injective: two different
16-byte digests never render to the same string, and what `md5_final` writes is such a
digest. -/
theorem sentinel_indistinguishable :
    (∀ (fopen : List Nat → Option (List (List Nat))) (ctx : MD5_CTX) (filepath : List Nat),
      fopen (cstr filepath) = none →
      calculate_md5 fopen ctx filepath = hexString (List.replicate 16 0)) ∧
    (∀ (fopen : List Nat → Option (List (List Nat))) (ctx : MD5_CTX) (filepath : List Nat)
      (reads : List (List Nat)), fopen (cstr filepath) = some reads →
      calculate_md5 fopen ctx filepath =
        hexString (md5_final (reads.foldl (fun c buffer => md5_update c buffer buffer.length)
          (md5_init ctx))).1) ∧
    (∀ d1 d2 : List Nat, d1.length = 16 → d2.length = 16 → (∀ b ∈ d1, b < 256) →
      (∀ b ∈ d2, b < 256) → hexString d1 = hexString d2 → d1 = d2) ∧
    (∀ ctx : MD5_CTX, (md5_final ctx).1.length = 16 ∧ ∀ b ∈ (md5_final ctx).1, b < 256) := by
  refine ⟨?_, ?_, hexString_injective, md5_final_digest_shape⟩
  · intro fopen ctx filepath h
    unfold calculate_md5
    rw [h]
    show List.replicate 32 48 = hexString (List.replicate 16 0)
    decide
  · intro fopen ctx filepath reads h
    unfold calculate_md5
    rw [h]

/-! ## The walker -/

theorem snprintf_path_short (dir_path d_name : List Nat)
    (h : (dir_path ++ [47] ++ d_name).length < MAX_PATH) :
    snprintf_path dir_path d_name = dir_path ++ [47] ++ d_name := by
  unfold snprintf_path
  exact List.take_of_length_le (by omega)

theorem properNames_cons_dot (n : List Nat) (names : List (List Nat))
    (h : n = [46] ∨ n = [46, 46]) : properNames (n :: names) = properNames names := by
  rcases h with rfl | rfl <;> simp [properNames]

theorem properNames_cons_proper (n : List Nat) (names : List (List Nat))
    (h : ¬ (n = [46] ∨ n = [46, 46])) : properNames (n :: names) = n :: properNames names := by
  rw [not_or] at h
  simp [properNames, List.filter_cons, h.1, h.2]

/-- The loop over the listing of a directory enqueues the regular files below its
entries, provided the recursive call does so for every directory of depth below `d`. -/
theorem readdir_loop_spec (fs : FileSys) (recurse : List Nat → Option (List (List Nat)))
    (d : Nat) (dir_path : List Nat)
    (hrec : ∀ p es, fs.ShowsDir p es → entriesDepth es < d →
      recurse p = some (entriesPaths p es)) :
    ∀ (names : List (List Nat)) (es : List (List Nat × DirTree)),
      properNames names = es.map Prod.fst → fs.ShowsEntries dir_path es →
      entriesDepth es ≤ d →
      readdir_loop fs recurse dir_path names = some (entriesPaths dir_path es) := by
  intro names
  induction names with
  | nil =>
    intro es hn _ _
    have : es = [] := by
      cases es with
      | nil => rfl
      | cons e es => simp [properNames] at hn
    subst this
    rfl
  | cons n names ih =>
    intro es hn hs hd
    by_cases hdot : n = [46] ∨ n = [46, 46]
    · rw [properNames_cons_dot n names hdot] at hn
      rw [readdir_loop, if_pos hdot]
      exact ih es hn hs hd
    · rw [properNames_cons_proper n names hdot] at hn
      cases es with
      | nil => simp at hn
      | cons e es =>
        obtain ⟨name, t⟩ := e
        simp only [List.map_cons, List.cons.injEq] at hn
        obtain ⟨hname, hn⟩ := hn
        subst hname
        simp only [FileSys.ShowsEntries] at hs
        obtain ⟨hlen, ht, hs⟩ := hs
        simp only [entriesDepth] at hd
        have hrest := ih es hn hs (by omega)
        rw [readdir_loop, if_neg hdot, snprintf_path_short _ _ hlen]
        cases t with
        | file =>
          simp only [FileSys.Shows] at ht
          simp only [ht, hrest, Option.map_some', entriesPaths, DirTree.paths,
            List.singleton_append]
        | other =>
          simp only [FileSys.Shows] at ht
          simp only [ht, hrest, entriesPaths, DirTree.paths, List.nil_append]
        | dir sub =>
          simp only [FileSys.Shows] at ht
          obtain ⟨hst, hnames, hsub⟩ := ht
          simp only [DirTree.depth] at hd
          have hr := hrec (dir_path ++ [47] ++ n) sub ⟨hnames, hsub⟩ (by omega)
          simp only [hst, hr, hrest, Option.map_some', entriesPaths, DirTree.paths]

/-- With fuel above the depth of the tree, the walk returns, and it enqueues the regular
files of the tree, depth first. -/
theorem add_files_from_directory_spec (fs : FileSys) :
    ∀ (fuel : Nat) (dir_path : List Nat) (es : List (List Nat × DirTree)),
      fs.ShowsDir dir_path es → entriesDepth es < fuel →
      add_files_from_directory fs fuel dir_path = some (entriesPaths dir_path es) := by
  intro fuel
  induction fuel with
  | zero => intro _ _ _ h; omega
  | succ fuel ih =>
    intro dir_path es hs hd
    obtain ⟨⟨names, hopen, hnames⟩, hent⟩ := hs
    rw [add_files_from_directory, hopen]
    exact readdir_loop_spec fs _ fuel dir_path (fun p es1 h1 h2 => ih p es1 h1 h2) names es
      hnames hent (by omega)

/-- One path per regular file. -/
theorem entriesPaths_length :
    ∀ (d : Nat) (es : List (List Nat × DirTree)) (dir_path : List Nat),
      entriesDepth es ≤ d → (entriesPaths dir_path es).length = countFiles es := by
  intro d
  induction d with
  | zero =>
    intro es
    induction es with
    | nil => intro _ _; rfl
    | cons e es ih =>
      intro dir_path hd
      obtain ⟨name, t⟩ := e
      simp only [entriesDepth] at hd
      cases t with
      | file => simp [entriesPaths, DirTree.paths, countFiles, DirTree.countFiles,
          ih dir_path (by omega)]; omega
      | other => simp [entriesPaths, DirTree.paths, countFiles, DirTree.countFiles,
          ih dir_path (by omega)]
      | dir sub => simp only [DirTree.depth] at hd; omega
  | succ d ihd =>
    intro es
    induction es with
    | nil => intro _ _; rfl
    | cons e es ih =>
      intro dir_path hd
      obtain ⟨name, t⟩ := e
      simp only [entriesDepth] at hd
      cases t with
      | file => simp [entriesPaths, DirTree.paths, countFiles, DirTree.countFiles,
          ih dir_path (by omega)]; omega
      | other => simp [entriesPaths, DirTree.paths, countFiles, DirTree.countFiles,
          ih dir_path (by omega)]
      | dir sub =>
        simp only [DirTree.depth] at hd
        simp only [entriesPaths, DirTree.paths, countFiles, DirTree.countFiles,
          List.length_append, ih dir_path (by omega), ihd sub _ (by omega)]

/-- C12. Over a finite directory tree as `stat` shows it (every entry accessible, every
joined path shorter than `MAX_PATH`), with fuel above its depth,
`add_files_from_directory` on the root returns and hands to `queue_enqueue` exactly the
paths of the regular files of the tree, each the directory path, `'/'` and the entry name
joined along the route from the root, depth first: one task per regular file, `K` tasks
for `K` regular files, none for a directory, for `.` and `..`, or for another kind. -/
theorem walker_enqueues_regular_files (fs : FileSys) (root : List Nat)
    (es : List (List Nat × DirTree)) (fuel : Nat) (h : fs.ShowsDir root es)
    (hf : entriesDepth es < fuel) :
    add_files_from_directory fs fuel root = some (entriesPaths root es) ∧
    (entriesPaths root es).length = countFiles es :=
  ⟨add_files_from_directory_spec fs fuel root es h hf,
    entriesPaths_length (entriesDepth es) es root (Nat.le_refl _)⟩

theorem demoFs_shows : demoFs.ShowsDir [100] demoTree := by
  refine ⟨⟨_, rfl, by decide⟩, ?_⟩
  simp only [demoTree, FileSys.ShowsEntries, FileSys.Shows, and_true]
  refine ⟨by decide, rfl, by decide, rfl, by decide, ⟨rfl, ⟨_, rfl, by decide⟩, by decide, rfl⟩,
    by decide, rfl⟩

theorem walker_enqueues_regular_files_witness :
    entriesDepth demoTree < 2 ∧
    add_files_from_directory demoFs 2 [100] =
      some [[100, 47, 102], [100, 47, 115, 47, 103], [100, 47, 108]] ∧
    countFiles demoTree = 3 :=
  have h := walker_enqueues_regular_files demoFs [100] demoTree 2 demoFs_shows (by decide)
  ⟨by decide, h.1, by decide⟩

/-- C13, as the code has it. An entry for which `stat` fails or reports neither a regular
file nor a directory gets no task and no recursive call, whatever follows in the listing.
`stat` follows symbolic links, so a link is handled as its target: an entry that `stat`
reports as a regular file gets a task, and one it reports as a directory is walked, also
when the entry is a symbolic link. -/
theorem walker_classifies_by_stat (fs : FileSys)
    (recurse : List Nat → Option (List (List Nat))) (dir_path d_name : List Nat)
    (rest : List (List Nat)) (hname : ¬ (d_name = [46] ∨ d_name = [46, 46])) :
    ((fs.stat (snprintf_path dir_path d_name) = none ∨
        fs.stat (snprintf_path dir_path d_name) = some StMode.other) →
      ∀ recurse1 : List Nat → Option (List (List Nat)),
        readdir_loop fs recurse1 dir_path (d_name :: rest) =
          readdir_loop fs recurse1 dir_path rest) ∧
    (fs.stat (snprintf_path dir_path d_name) = some StMode.reg →
      readdir_loop fs recurse dir_path (d_name :: rest) =
        (readdir_loop fs recurse dir_path rest).map fun l =>
          snprintf_path dir_path d_name :: l) ∧
    (fs.stat (snprintf_path dir_path d_name) = some StMode.dir →
      ∀ sub, recurse (snprintf_path dir_path d_name) = some sub →
        readdir_loop fs recurse dir_path (d_name :: rest) =
          (readdir_loop fs recurse dir_path rest).map fun l => sub ++ l) := by
  refine ⟨?_, ?_, ?_⟩
  · intro h recurse1
    rw [readdir_loop, if_neg hname]
    rcases h with h | h <;> simp only [h]
  · intro h
    rw [readdir_loop, if_neg hname]
    simp only [h]
  · intro h sub hsub
    rw [readdir_loop, if_neg hname]
    simp only [h, hsub]

theorem walker_classifies_by_stat_witness :
    ¬ (([118] : List Nat) = [46] ∨ ([118] : List Nat) = [46, 46]) ∧
    demoFs.stat (snprintf_path [100] [118]) = some StMode.other ∧
    readdir_loop demoFs (fun _ => none) [100] [[118], [102]] =
      readdir_loop demoFs (fun _ => none) [100] [[102]] :=
  ⟨by decide, by decide,
    (walker_classifies_by_stat demoFs (fun _ => none) [100] [118] [[102]] (by decide)).1
      (Or.inr (by decide)) (fun _ => none)⟩

/-- C13, as stated, fails: in `demoFs` the entry `l` of the directory `d` is a symbolic
link (its target is a regular file), and the walk of `d` hands its path `d/l` to
`queue_enqueue`. -/
theorem symlink_to_file_is_enqueued :
    demoFs.isLink [100, 47, 108] = true ∧
    readdir_loop demoFs (add_files_from_directory demoFs 1) [100] [[108]] =
      some [[100, 47, 108]] ∧
    add_files_from_directory demoFs 2 [100] =
      some [[100, 47, 102], [100, 47, 115, 47, 103], [100, 47, 108]] := by
  decide

/-! ## The driver -/

theorem main_loop_append (fs : FileSys) (fuel : Nat) (a b : List (List Nat))
    (ea eb : List MainEvent) (ha : main_loop fs fuel a = some ea)
    (hb : main_loop fs fuel b = some eb) : main_loop fs fuel (a ++ b) = some (ea ++ eb) := by
  induction a generalizing ea with
  | nil =>
    simp only [main_loop, Option.some.injEq] at ha
    subst ha
    simpa using hb
  | cons arg rest ih =>
    simp only [List.cons_append, main_loop] at ha ⊢
    cases hst : fs.stat arg with
    | none =>
      simp only [hst] at ha ⊢
      cases hr : main_loop fs fuel rest with
      | none => simp [hr] at ha
      | some er =>
        simp only [hr, Option.map_some', Option.some.injEq] at ha
        subst ha
        simp [ih er hr]
    | some m =>
      cases m with
      | reg =>
        simp only [hst] at ha ⊢
        cases hr : main_loop fs fuel rest with
        | none => simp [hr] at ha
        | some er =>
          simp only [hr, Option.map_some', Option.some.injEq] at ha
          subst ha
          simp [ih er hr]
      | dir =>
        simp only [hst] at ha ⊢
        cases hw : add_files_from_directory fs fuel arg with
        | none => simp [hw] at ha
        | some paths =>
          simp only [hw] at ha ⊢
          cases hr : main_loop fs fuel rest with
          | none => simp [hr] at ha
          | some er =>
            simp only [hr, Option.map_some', Option.some.injEq] at ha
            subst ha
            simp [ih er hr]
      | other =>
        simp only [hst] at ha ⊢
        exact ih ea ha

theorem find_none_of_all_zero (f : Nat → Int) (h : ∀ i, f i = 0) :
    ((List.range NUM_THREADS).find? fun i => f i ≠ 0) = none := by
  rw [List.find?_eq_none]
  intro i _
  simp [h i]

/-- C16. The driver handles each argument on its own: an argument whose `stat` fails gives
one `Cannot access` line and no task, and the arguments after it are processed as before;
a regular file gives one task, a directory is walked; the events of two argument lists in
a row are those of the first followed by those of the second. When all threads start and
join, a run with at least one argument exits with 0, and the arguments
`[missing path, regular file]` give one warning, one task for the file, and exit code 0. -/
theorem main_handles_arguments (fs : FileSys) (fuel : Nat) :
    (∀ arg rest, fs.stat arg = none →
      main_loop fs fuel (arg :: rest) =
        (main_loop fs fuel rest).map fun l => MainEvent.cannotAccess arg :: l) ∧
    (∀ arg rest, fs.stat arg = some StMode.reg →
      main_loop fs fuel (arg :: rest) =
        (main_loop fs fuel rest).map fun l => MainEvent.enqueue arg :: l) ∧
    (∀ arg rest paths, fs.stat arg = some StMode.dir →
      add_files_from_directory fs fuel arg = some paths →
      main_loop fs fuel (arg :: rest) =
        (main_loop fs fuel rest).map fun l => paths.map MainEvent.enqueue ++ l) ∧
    (∀ a b ea eb, main_loop fs fuel a = some ea → main_loop fs fuel b = some eb →
      main_loop fs fuel (a ++ b) = some (ea ++ eb)) ∧
    (∀ (pthread_create pthread_join : Nat → Int) (argv : List (List Nat)),
      (∀ i, pthread_create i = 0) → (∀ i, pthread_join i = 0) → 2 ≤ argv.length →
      main fs fuel pthread_create pthread_join argv =
        (main_loop fs fuel argv.tail).map fun events => (0, events)) ∧
    (∀ (pthread_create pthread_join : Nat → Int) (prog missing file : List Nat),
      (∀ i, pthread_create i = 0) → (∀ i, pthread_join i = 0) →
      fs.stat missing = none → fs.stat file = some StMode.reg →
      main fs fuel pthread_create pthread_join [prog, missing, file] =
        some (0, [MainEvent.cannotAccess missing, MainEvent.enqueue file])) := by
  have hmain : ∀ (pthread_create pthread_join : Nat → Int) (argv : List (List Nat)),
      (∀ i, pthread_create i = 0) → (∀ i, pthread_join i = 0) → 2 ≤ argv.length →
      main fs fuel pthread_create pthread_join argv =
        (main_loop fs fuel argv.tail).map fun events => (0, events) := by
    intro pc pj argv hc hj hlen
    unfold main
    rw [if_neg (by omega), find_none_of_all_zero pc hc, find_none_of_all_zero pj hj]
    cases main_loop fs fuel argv.tail <;> rfl
  refine ⟨?_, ?_, ?_, main_loop_append fs fuel, hmain, ?_⟩
  · intro arg rest h
    rw [main_loop]
    simp only [h]
  · intro arg rest h
    rw [main_loop]
    simp only [h]
  · intro arg rest paths h hw
    rw [main_loop]
    simp only [h, hw]
  · intro pc pj prog missing file hc hj hm hfile
    rw [hmain pc pj _ hc hj (by simp)]
    simp only [List.tail_cons, main_loop, hm, hfile, Option.map_some']

/-! ## The shutdown signal under interleaving -/

/-- C17 fails on the code. The driver writes `should_exit` and broadcasts without the lock
(after the worker's first two steps the lock is held by the worker and the driver can still
move). On the schedule worker, worker, driver, driver, worker the write and the broadcast
fall between the worker's test of `size == 0 && !should_exit` and its `pthread_cond_wait`:
the worker ends up asleep with the flag set, and neither thread can move again. When the
driver goes first the worker returns 0 and is joined. -/
theorem shutdown_missed_wakeup :
    (∃ s, Shutdown.start.run [true, true] = some s ∧ s.locked = true ∧
      s.worker = WorkerPc.wait ∧ (s.mainStep.map fun t => t.should_exit) = some 1) ∧
    (∃ s, Shutdown.start.run [true, true, false, false, true] = some s ∧
      s.should_exit = 1 ∧ s.worker = WorkerPc.sleeping ∧ s.main = MainPc.join ∧
      s.workerStep = none ∧ s.mainStep = none) ∧
    (∃ s, Shutdown.start.run [false, false, true, true, false] = some s ∧
      s.worker = WorkerPc.returned 0 ∧ s.main = MainPc.done) := by
  refine ⟨⟨_, rfl, ?_⟩, ⟨_, rfl, ?_⟩, ⟨_, rfl, ?_⟩⟩ <;> decide

/-! ## The bit-length counter -/

/-- One `md5_update` adds `8 * len` to the 64-bit number held in the two counters. -/
theorem count_add64 (c0 c1 len : Nat) (h0 : c0 < 2 ^ 32) :
    ((if (c0 + (len <<< 3) % 2 ^ 32) % 2 ^ 32 < (len <<< 3) % 2 ^ 32 then (c1 + 1) % 2 ^ 32
        else c1) + len >>> 29) % 2 ^ 32 * 2 ^ 32 + (c0 + (len <<< 3) % 2 ^ 32) % 2 ^ 32 =
      (c1 * 2 ^ 32 + c0 + 8 * len) % 2 ^ 64 := by
  rw [Nat.shiftLeft_eq, Nat.shiftRight_eq_div_pow]
  norm_num at h0 ⊢
  split <;> omega

/-- The counters after any chunks hold `8 * (l1 + ... + ln)`, low and high word. -/
theorem md5_update_chunks_count (chunks : List (List Nat)) :
    ∀ (ctx : MD5_CTX) (p : Nat), ctx.count0 = 8 * p % 2 ^ 32 →
      ctx.count1 = 8 * p / 2 ^ 32 % 2 ^ 32 →
      (chunks.foldl (fun c X => md5_update c X X.length) ctx).count0 =
        8 * (p + (chunks.map List.length).sum) % 2 ^ 32 ∧
      (chunks.foldl (fun c X => md5_update c X X.length) ctx).count1 =
        8 * (p + (chunks.map List.length).sum) / 2 ^ 32 % 2 ^ 32 := by
  induction chunks with
  | nil => intro ctx p h0 h1; simpa using ⟨h0, h1⟩
  | cons X rest ih =>
    intro ctx p h0 h1
    obtain ⟨a, b⟩ := count_update p X.length ctx.count0 ctx.count1 h0 h1
    have := ih (md5_update ctx X X.length) (p + X.length)
      (by rw [md5_update_count0]; exact a) (by rw [md5_update_count1]; exact b)
    simpa [Nat.add_assoc] using this

/-- C21. Starting from `md5_init`, after `md5_update` calls with chunks of any lengths, those
below `2 ^ 32` among them, the two 32-bit counters hold the bit length of what was fed:
`count[1] * 2 ^ 32 + count[0] = 8 * (l1 + ... + ln) mod 2 ^ 64`; and one `md5_update` on any
context with a 32-bit `count[0]` adds `8 * len` to that 64-bit number exactly. -/
theorem md5_count_is_bit_length (ctx : MD5_CTX) (chunks : List (List Nat)) :
    (chunks.foldl (fun c X => md5_update c X X.length) (md5_init ctx)).count1 * 2 ^ 32 +
        (chunks.foldl (fun c X => md5_update c X X.length) (md5_init ctx)).count0 =
      8 * (chunks.map List.length).sum % 2 ^ 64 ∧
    (chunks.foldl (fun c X => md5_update c X X.length) (md5_init ctx)).count0 < 2 ^ 32 ∧
    (chunks.foldl (fun c X => md5_update c X X.length) (md5_init ctx)).count1 < 2 ^ 32 ∧
    (∀ (c : MD5_CTX) (X : List Nat) (len : Nat), c.count0 < 2 ^ 32 →
      (md5_update c X len).count1 * 2 ^ 32 + (md5_update c X len).count0 =
        (c.count1 * 2 ^ 32 + c.count0 + 8 * len) % 2 ^ 64) := by
  obtain ⟨a, b⟩ := md5_update_chunks_count chunks (md5_init ctx) 0 rfl rfl
  rw [a, b]
  refine ⟨?_, ?_, ?_, ?_⟩
  · norm_num
    omega
  · exact Nat.mod_lt _ (by norm_num)
  · exact Nat.mod_lt _ (by norm_num)
  · intro c X len h0
    rw [md5_update_count0, md5_update_count1]
    exact count_add64 c.count0 c.count1 len h0

/-! ## The update invariant, stated -/

/-- Chunks of at most `2 ^ 32 - 64` bytes keep the invariant, whatever their total. -/
theorem md5_update_chunks_inv_bounded (chunks : List (List Nat)) :
    ∀ (ctx : MD5_CTX) (M : List Nat), UpdateInv ctx M →
      (∀ X ∈ chunks, X.length + 64 ≤ 2 ^ 32) →
      UpdateInv (chunks.foldl (fun c X => md5_update c X X.length) ctx) (M ++ chunks.flatten) := by
  induction chunks with
  | nil => intro ctx M h _; simpa using h
  | cons X rest ih =>
    intro ctx M h hb
    simp only [List.flatten_cons, List.foldl_cons, ← List.append_assoc]
    apply ih _ _ _ (fun Y hY => hb Y (List.mem_cons_of_mem _ hY))
    have hX := hb X (List.mem_cons_self _ _)
    have hx := md5_update_inv ctx M X X.length h (Nat.le_refl _) (by
      have := Nat.mod_lt M.length (show 0 < 64 by norm_num)
      omega)
    rwa [List.take_length] at hx

/-- C22, as the code has it. Starting from `md5_init`, after `md5_update` calls whose chunks
(each of at most `2 ^ 32 - 64` bytes) concatenate to `M`, the state is the fold of
`md5_transform` from the initial state over the `|M| / 64` full blocks of `M`, the buffer
index is `|M| % 64`, and the first `|M| % 64` cells of the buffer hold the last
`|M| % 64` bytes of `M`; and every `md5_update` whose length satisfies
`index + len < 2 ^ 32` keeps this relation. -/
theorem md5_update_invariant (ctx : MD5_CTX) (chunks : List (List Nat))
    (h : ∀ X ∈ chunks, X.length + 64 ≤ 2 ^ 32) :
    (chunks.foldl (fun c X => md5_update c X X.length) (md5_init ctx)).state =
      (blocksUpTo chunks.flatten (chunks.flatten.length / 64)).foldl md5_transform
        md5_initial_state ∧
    (chunks.foldl (fun c X => md5_update c X X.length) (md5_init ctx)).count0 / 8 % 64 =
      chunks.flatten.length % 64 ∧
    (chunks.foldl (fun c X => md5_update c X X.length) (md5_init ctx)).buffer.take
        (chunks.flatten.length % 64) =
      chunks.flatten.drop (chunks.flatten.length - chunks.flatten.length % 64) ∧
    (∀ (c : MD5_CTX) (M X : List Nat), UpdateInv c M →
      c.count0 / 8 % 64 + X.length < 2 ^ 32 →
      UpdateInv (md5_update c X X.length) (M ++ X)) := by
  have hinv := md5_update_chunks_inv_bounded chunks (md5_init ctx) [] (md5_init_inv ctx) h
  rw [List.nil_append] at hinv
  obtain ⟨hs, hb, hc0, _⟩ := hinv
  refine ⟨hs, index_eq _ _ hc0, hb, ?_⟩
  intro c M X hc hlt
  have hx := md5_update_inv c M X X.length hc (Nat.le_refl _) (by
    rw [← index_eq c.count0 M.length hc.2.2.1]; exact hlt)
  rwa [List.take_length] at hx

theorem md5_update_invariant_witness :
    (∀ X ∈ [[1, 2, 3], [], [4]], X.length + 64 ≤ 2 ^ 32) ∧
    ([[1, 2, 3], [], [4]].foldl (fun c X => md5_update c X X.length)
        (md5_init ctxZero)).buffer.take ([[1, 2, 3], [], [4]].flatten.length % 64) =
      [[1, 2, 3], [], [4]].flatten.drop
        ([[1, 2, 3], [], [4]].flatten.length - [[1, 2, 3], [], [4]].flatten.length % 64) :=
  ⟨by decide, (md5_update_invariant ctxZero [[1, 2, 3], [], [4]] (by decide)).2.2.1⟩

/-- With `len = 2 ^ 32 - 1` and a start at 62 modulo 64, the test `i + 63 < len` of the
block loop holds whenever it is made: `i + 63` wraps around before it can reach `len`. -/
theorem md5_update_loop_wrap (X : List Nat) :
    ∀ (fuel : Nat) (s : MD5State) (i : Nat), i % 64 = 62 → i < 2 ^ 32 →
      (md5_update_loop fuel s X i (2 ^ 32 - 1)).2 % 64 = 62 ∧
      (md5_update_loop fuel s X i (2 ^ 32 - 1)).2 < 2 ^ 32 ∧
      (md5_update_loop_calls fuel X i (2 ^ 32 - 1)).length = fuel := by
  intro fuel
  induction fuel with
  | zero => intro s i h1 h2; exact ⟨h1, h2, rfl⟩
  | succ fuel ih =>
    intro s i h1 h2
    have hc : (i + 63) % 2 ^ 32 < 2 ^ 32 - 1 := by
      norm_num at h2 ⊢
      omega
    have hn1 : (i + 64) % 2 ^ 32 % 64 = 62 := by
      norm_num at h2 ⊢
      omega
    have hn2 : (i + 64) % 2 ^ 32 < 2 ^ 32 := Nat.mod_lt _ (by norm_num)
    unfold md5_update_loop md5_update_loop_calls
    rw [if_pos hc, if_pos hc]
    obtain ⟨a, b, c⟩ := ih (md5_transform s (X.drop i)) _ hn1 hn2
    exact ⟨a, b, by rw [List.length_cons, c]⟩

/-- C22, as stated, fails: after the two bytes `0 0` the buffer index is 2, and for a next
chunk of `2 ^ 32 - 1` bytes, a length that fits `unsigned int`, the block loop of
`md5_update` starts at `i = 62` and never leaves: with any fuel it uses all of it, and
where it stops the test `i + 63 < len` still holds, `i + 63` having wrapped around. The
call does not return, so it does not keep the relation. -/
theorem md5_update_large_chunk_loops :
    (md5_update (md5_init ctxZero) [0, 0] 2).count0 / 8 % 64 = 2 ∧
    (List.replicate (2 ^ 32 - 1) 0).length < 2 ^ 32 ∧
    (∀ (fuel : Nat) (s : MD5State),
      (md5_update_loop_calls fuel (List.replicate (2 ^ 32 - 1) 0) (64 - 2) (2 ^ 32 - 1)).length
        = fuel ∧
      ((md5_update_loop fuel s (List.replicate (2 ^ 32 - 1) 0) (64 - 2) (2 ^ 32 - 1)).2 + 63)
        % 2 ^ 32 < 2 ^ 32 - 1) := by
  refine ⟨by decide, by rw [List.length_replicate]; norm_num, ?_⟩
  intro fuel s
  obtain ⟨a, b, c⟩ := md5_update_loop_wrap (List.replicate (2 ^ 32 - 1) 0) fuel s (64 - 2)
    (by norm_num) (by norm_num)
  refine ⟨c, ?_⟩
  norm_num at a b ⊢
  omega

/-! ## The staging buffer before `md5_init` -/

/-- C23. `md5_init` leaves the staging buffer as it finds it, and the digest does not depend
on it: for every message `M` shorter than `2 ^ 32` bytes and any two contexts, whatever
their buffers hold, `md5_init`, `md5_update` with `M` and `md5_final` write the same
sixteen bytes. -/
theorem md5_digest_ignores_buffer (ctx1 ctx2 : MD5_CTX) (M : List Nat)
    (h : M.length < 2 ^ 32) :
    (md5_init ctx1).buffer = ctx1.buffer ∧
    (md5_init ctx1).state = (md5_init ctx2).state ∧
    (md5_init ctx1).count0 = (md5_init ctx2).count0 ∧
    (md5_init ctx1).count1 = (md5_init ctx2).count1 ∧
    (md5_final (md5_update (md5_init ctx1) M M.length)).1 =
      (md5_final (md5_update (md5_init ctx2) M M.length)).1 := by
  refine ⟨rfl, rfl, rfl, rfl, ?_⟩
  have h1 := md5_chunks_eq_reference ctx1 [M] (by simpa using h)
  have h2 := md5_chunks_eq_reference ctx2 [M] (by simpa using h)
  simp only [List.foldl_cons, List.foldl_nil] at h1 h2
  rw [h1, h2]

theorem md5_digest_ignores_buffer_witness :
    [0x61, 0x62, 0x63].length < 2 ^ 32 ∧
    (md5_final (md5_update (md5_init ctxZero) [0x61, 0x62, 0x63] [0x61, 0x62, 0x63].length)).1 =
      (md5_final (md5_update (md5_init { ctxZero with buffer := List.replicate 64 255 })
        [0x61, 0x62, 0x63] [0x61, 0x62, 0x63].length)).1 :=
  ⟨by decide, (md5_digest_ignores_buffer ctxZero { ctxZero with buffer := List.replicate 64 255 }
    [0x61, 0x62, 0x63] (by decide)).2.2.2.2⟩

/-! ## The stored path -/

theorem takeWhile_nul_free (p : List Nat) (h : ∀ b ∈ p, b ≠ 0) :
    p.takeWhile (fun b => b ≠ 0) = p := by
  rw [List.takeWhile_eq_self_iff]
  intro b hb
  simpa using h b hb

theorem cstr_append_nul (a rest : List Nat) (h : ∀ b ∈ a, b ≠ 0) :
    cstr (a ++ 0 :: rest) = a := by
  unfold cstr
  induction a with
  | nil => simp
  | cons x a ih =>
    have hx : x ≠ 0 := h x (List.mem_cons_self _ _)
    simp only [List.cons_append, List.takeWhile_cons, hx, ne_eq, not_false_eq_true,
      decide_True, ↓reduceIte, List.cons.injEq, true_and]
    exact ih fun b hb => h b (List.mem_cons_of_mem _ hb)

/-- The cells of a stored task: the first 4095 bytes of the path at most, then NULs up to
the 4096 cells of the array. -/
theorem storedTask_path (p : List Nat) (h : ∀ b ∈ p, b ≠ 0) :
    (storedTask p).path =
      p.take (MAX_PATH - 1) ++ 0 :: List.replicate (MAX_PATH - 1 - p.length) 0 := by
  unfold storedTask strncpy
  simp only [takeWhile_nul_free p h]
  rw [List.append_assoc, ← List.replicate_succ', List.replicate_succ]

theorem storedTask_spec (p : List Nat) (h : ∀ b ∈ p, b ≠ 0) :
    (storedTask p).path.length = MAX_PATH ∧
    (storedTask p).path.getD (MAX_PATH - 1) 1 = 0 ∧
    cstr (storedTask p).path = p.take (min p.length (MAX_PATH - 1)) ∧
    (p.length < MAX_PATH → cstr (storedTask p).path = p) := by
  have hc : cstr (storedTask p).path = p.take (MAX_PATH - 1) := by
    rw [storedTask_path p h]
    exact cstr_append_nul _ _ fun b hb => h b (List.mem_of_mem_take hb)
  refine ⟨?_, ?_, ?_, ?_⟩
  · rw [storedTask_path p h]
    simp only [List.length_append, List.length_take, List.length_cons, List.length_replicate,
      MAX_PATH]
    omega
  · unfold storedTask
    rw [List.getD_eq_getElem?_getD, List.getElem?_append_right]
    · have : (strncpy p (MAX_PATH - 1)).length = MAX_PATH - 1 := by
        unfold strncpy
        simp only [List.length_append, List.length_take, List.length_replicate]
        omega
      simp [this]
    · unfold strncpy
      simp only [List.length_append, List.length_take, List.length_replicate]
      omega
  · rw [hc]
    by_cases hl : p.length ≤ MAX_PATH - 1
    · rw [Nat.min_eq_left hl, List.take_of_length_le hl, List.take_of_length_le (Nat.le_refl _)]
    · rw [Nat.min_eq_right (by omega)]
  · intro hl
    rw [hc]
    exact List.take_of_length_le (by unfold MAX_PATH at hl ⊢; omega)

/-- C24. `queue_enqueue` stores a bounded copy of the path: for every path `p` without a NUL,
the cell written at the new `rear` has `MAX_PATH` cells, ends in a NUL, and holds as its
string the first `min(|p|, MAX_PATH - 1)` bytes of `p`, that is `p` itself when `p` is
shorter than `MAX_PATH`; and on a queue reached from `queue_init(C)` the dequeue that comes
after those for the tasks already held returns this very cell. -/
theorem queue_enqueue_bounded_copy (C : Int) (mem : Int → FileTask) (ops : List QOp)
    (s : QRun) (hC : 0 ≤ C) (h : (QRun.start C mem).run ops = some s) (p : List Nat)
    (hp : ∀ b ∈ p, b ≠ 0) (q1 : TaskQueue) (he : queue_enqueue s.q p = some q1) :
    q1.tasks q1.rear = storedTask p ∧
    (q1.tasks q1.rear).path.length = MAX_PATH ∧
    (q1.tasks q1.rear).path.getD (MAX_PATH - 1) 1 = 0 ∧
    cstr (q1.tasks q1.rear).path = p.take (min p.length (MAX_PATH - 1)) ∧
    (p.length < MAX_PATH → cstr (q1.tasks q1.rear).path = p) ∧
    (∀ (e : Int) (task : FileTask) (n : Nat), e ≠ 0 → ∃ q2,
      dequeueN e (s.q.contents.length + 1 + n) q1 task =
        some (((s.q.contents ++ [storedTask p]).map fun t => ((1 : Int), t)) ++
          List.replicate n (0, storedTask p), q2)) := by
  obtain ⟨hq, _, _⟩ := reachable_inv C mem ops s hC h
  have hcell : q1.tasks q1.rear = storedTask p := by
    rw [(queue_enqueue_some s.q q1 p he).2.2.2.2.2, Function.update_same]
  obtain ⟨a, b, c, d⟩ := storedTask_spec p hp
  rw [hcell]
  refine ⟨rfl, a, b, c, d, ?_⟩
  intro e task n hne
  have hcont := queue_enqueue_contents s.q q1 p hq he
  obtain ⟨q2, hq2⟩ := dequeueN_drain e hne (s.q.contents ++ [storedTask p]) q1 task
    (queue_enqueue_inv s.q q1 p hq he) hcont n
  refine ⟨q2, ?_⟩
  simpa [List.getLastD_concat, Nat.add_assoc] using hq2

theorem queue_enqueue_bounded_copy_witness :
    (0 : Int) ≤ 2 ∧ (QRun.start 2 demoMem).run demoOps = some demoState ∧
    (∀ b ∈ [47, 97], b ≠ 0) ∧
    ∃ q1, queue_enqueue demoState.q [47, 97] = some q1 ∧
      cstr (q1.tasks q1.rear).path = [47, 97] :=
  ⟨by decide, demo_run, by decide, _, rfl,
    (queue_enqueue_bounded_copy 2 demoMem demoOps demoState (by decide) demo_run [47, 97]
      (by decide) _ rfl).2.2.2.2.1 (by decide)⟩

end MD5Hash

namespace DiningPhilosophers

/-! ## Argument parsing of the dining philosophers program -/

/-- With a value that is not empty, `--max-eat=V` fails the test
`strncmp(arg, "--max-eat=", 11) == 0`: the eleventh character compared is the first of `V`
against the terminator of the literal. -/
theorem max_eat_test_fails (c : Char) (v : List Char) (hc : c ≠ NUL) :
    strncmp_zero ("--max-eat=".toList ++ c :: v) "--max-eat=".toList 11 = false := by
  have e : "--max-eat=".toList = ['-', '-', 'm', 'a', 'x', '-', 'e', 'a', 't', '='] := rfl
  rw [e]
  simp [strncmp_zero, NUL] at hc ⊢
  exact hc

/-- With the count 10, the length of the literal, the same test succeeds. -/
theorem max_eat_test_ten (v : List Char) :
    strncmp_zero ("--max-eat=".toList ++ v) "--max-eat=".toList 10 = true := by
  have e : "--max-eat=".toList = ['-', '-', 'm', 'a', 'x', '-', 'e', 'a', 't', '='] := rfl
  rw [e]
  simp [strncmp_zero, NUL]

/-- Every `--max-eat=V` with a value `V` that is not empty is rejected as unknown. -/
theorem parse_loop_max_eat_unknown {V : Type} (atof : List Char → V) (cfg : Config V)
    (c : Char) (v : List Char) (rest : List (List Char)) (hc : c ≠ NUL) :
    parse_loop atof cfg (("--max-eat=".toList ++ c :: v) :: rest) =
      ParseResult.unknownArg ("--max-eat=".toList ++ c :: v) := by
  have e0 : "--max-eat=".toList = ['-', '-', 'm', 'a', 'x', '-', 'e', 'a', 't', '='] := rfl
  have e1 : "--run-time=".toList = ['-', '-', 'r', 'u', 'n', '-', 't', 'i', 'm', 'e', '='] := rfl
  have e2 : "--max-think=".toList =
      ['-', '-', 'm', 'a', 'x', '-', 't', 'h', 'i', 'n', 'k', '='] := rfl
  have e3 : "--timeout=".toList = ['-', '-', 't', 'i', 'm', 'e', 'o', 'u', 't', '='] := rfl
  have e4 : "--starvation-limit=".toList =
      ['-', '-', 's', 't', 'a', 'r', 'v', 'a', 't', 'i', 'o', 'n', '-', 'l', 'i', 'm', 'i', 't',
        '='] := rfl
  have e5 : "--help".toList = ['-', '-', 'h', 'e', 'l', 'p'] := rfl
  have e6 : "-h".toList = ['-', 'h'] := rfl
  rw [parse_loop, e0, e1, e2, e3, e4, e5, e6]
  simp [strncmp_zero, NUL] at hc ⊢
  exact fun h => absurd h hc

/-- Every `--starvation-limit=V` with a value `V` that is not empty is rejected as
unknown. -/
theorem parse_loop_starvation_limit_unknown {V : Type} (atof : List Char → V)
    (cfg : Config V) (c : Char) (v : List Char) (rest : List (List Char)) (hc : c ≠ NUL) :
    parse_loop atof cfg (("--starvation-limit=".toList ++ c :: v) :: rest) =
      ParseResult.unknownArg ("--starvation-limit=".toList ++ c :: v) := by
  have e0 : "--max-eat=".toList = ['-', '-', 'm', 'a', 'x', '-', 'e', 'a', 't', '='] := rfl
  have e1 : "--run-time=".toList = ['-', '-', 'r', 'u', 'n', '-', 't', 'i', 'm', 'e', '='] := rfl
  have e2 : "--max-think=".toList =
      ['-', '-', 'm', 'a', 'x', '-', 't', 'h', 'i', 'n', 'k', '='] := rfl
  have e3 : "--timeout=".toList = ['-', '-', 't', 'i', 'm', 'e', 'o', 'u', 't', '='] := rfl
  have e4 : "--starvation-limit=".toList =
      ['-', '-', 's', 't', 'a', 'r', 'v', 'a', 't', 'i', 'o', 'n', '-', 'l', 'i', 'm', 'i', 't',
        '='] := rfl
  have e5 : "--help".toList = ['-', '-', 'h', 'e', 'l', 'p'] := rfl
  have e6 : "-h".toList = ['-', 'h'] := rfl
  rw [parse_loop, e0, e1, e2, e3, e4, e5, e6]
  simp [strncmp_zero, NUL] at hc ⊢
  exact fun h => absurd h hc

/-- C18 fails on the code. `--max-eat=2` and `--starvation-limit=7`, both of the form the
usage text lists, leave `parse_args` through the `Unknown arg` branch, because the counts 11
and 20 given to `strncmp` are one more than the lengths 10 and 19 of the literals; only the
bare `--max-eat=` and `--starvation-limit=` pass these tests. The three other options,
whose counts are the lengths of their literals, set their field from the value. -/
theorem parse_args_rejects_max_eat (V : Type) (atof : List Char → V) (le_zero : V → Bool)
    (defaults : Config V) :
    parse_args atof le_zero defaults ["prog".toList, "--max-eat=2".toList] =
      ParseResult.unknownArg "--max-eat=2".toList ∧
    parse_args atof le_zero defaults ["prog".toList, "--starvation-limit=7".toList] =
      ParseResult.unknownArg "--starvation-limit=7".toList ∧
    parse_loop atof defaults ["--max-eat=".toList] =
      ParseResult.ok { defaults with max_eat_sec := atof [] } ∧
    parse_loop atof defaults ["--run-time=2".toList] =
      ParseResult.ok { defaults with run_time_sec := atof "2".toList } ∧
    parse_loop atof defaults ["--max-think=2".toList] =
      ParseResult.ok { defaults with max_think_sec := atof "2".toList } ∧
    parse_loop atof defaults ["--timeout=2".toList] =
      ParseResult.ok { defaults with timeout_sec := atof "2".toList } :=
  ⟨rfl, rfl, rfl, rfl, rfl, rfl⟩

end DiningPhilosophers
